import Mathlib

/-!
Verification of the OCM distributed-synchronization core: a shallow embedding
of the vector-clock / CRDT layer (`ocm-core/src/sync/crdt.rs`), the identity
and signed-memory layer (`ocm-core/src/identity/plc.rs`,
`ocm-core/src/core/models.rs`) and the per-IP rate limiter
(`ocm-core/src/networking/protocol.rs`), together with theorems checking the
specification claims against these definitions.

Modelling conventions:
* Rust `u64`/`u32` values are `Nat` with explicit wrap-around (`% 2 ^ 64`,
  `% 2 ^ 32`) where overflow or underflow can matter.
* `BTreeMap` values are association lists kept sorted by key; `HashSet` and
  `HashMap` values are lists with lookup semantics.
* Wall-clock instants (`chrono::Utc::now`, parsed RFC 3339 timestamps) are
  `Nat` parameters; a timestamp string that may fail to parse is `Option Nat`.
* Fallible Rust functions on `&mut self` become functions returning
  `Except err α × State`, so that partial mutations before an error remain
  observable, exactly as in the source.
* External cryptography (Ed25519, base64 decoding) is passed in as function
  parameters; SHA-256 and RFC 4648 base32 are implemented concretely.
-/

namespace Ocm

/-! ## Byte-level string order

Rust `String` ordering (used by `BTreeMap<String, _>` and `sort_unstable`)
is lexicographic. `String <` of Lean does not reduce in the kernel, so we
define the same order on the character lists directly. -/

/-- Lexicographic strict order on character lists, by code point. -/
def charsLt : List Char → List Char → Bool
  | [], [] => false
  | [], _ :: _ => true
  | _ :: _, [] => false
  | c :: cs, d :: ds =>
    if c.toNat < d.toNat then true
    else if d.toNat < c.toNat then false
    else charsLt cs ds

/-- Lexicographic strict order on strings (the order of Rust `String: Ord`). -/
def strLt (a b : String) : Bool := charsLt a.data b.data

/-- Non-strict string order derived from `strLt`. -/
def strLe (a b : String) : Bool := !(strLt b a)

/-! ## Vector clocks (`VectorClock` in `sync/crdt.rs`)

The Rust field `clock : BTreeMap<String, u64>` is an association list sorted
by `strLt`. -/

/-- Embeds `VectorClock`: peer id to logical counter, sorted by key. -/
structure VectorClock where
  clock : List (String × Nat)
  deriving DecidableEq

/-- Lookup of a peer counter; missing keys read as zero only where the source
treats them so (the source uses `get`/`unwrap_or(&0)` in `increment`). -/
def vcEntry (l : List (String × Nat)) (k : String) : Option Nat :=
  (l.find? (fun p => p.1 == k)).map (fun p => p.2)

/-- Counter of peer `k`, defaulting to zero for absent keys. -/
def vcGet (l : List (String × Nat)) (k : String) : Nat :=
  (vcEntry l k).getD 0

/-- Sorted insert-or-replace, the effect of `BTreeMap::insert`. -/
def vcInsert : List (String × Nat) → String → Nat → List (String × Nat)
  | [], k, v => [(k, v)]
  | (k2, v2) :: t, k, v =>
    if k = k2 then (k, v) :: t
    else if strLt k k2 then (k, v) :: (k2, v2) :: t
    else (k2, v2) :: vcInsert t k v

/-- Checks that an association list is strictly sorted by key, the `BTreeMap`
invariant. -/
def vcSorted : List (String × Nat) → Bool
  | [] => true
  | [_] => true
  | a :: b :: t => strLt a.1 b.1 && vcSorted (b :: t)

/-- Embeds `VectorClock::increment`: bump one peer counter (missing ↦ 0). -/
def VectorClock.increment (c : VectorClock) (peer_id : String) : VectorClock :=
  ⟨vcInsert c.clock peer_id (vcGet c.clock peer_id + 1)⟩

/-- Embeds `VectorClock::update`: componentwise maximum with `other`
(`entry(..).and_modify(max).or_insert(t)` for each entry of `other`). -/
def VectorClock.update (c : VectorClock) (other : VectorClock) : VectorClock :=
  ⟨other.clock.foldl (fun acc e => vcInsert acc e.1 (max (vcGet acc e.1) e.2)) c.clock⟩

/-- Embeds the `ClockOrdering` enum. -/
inductive ClockOrdering where
  | Less
  | Greater
  | Equal
  | Concurrent
  deriving DecidableEq

/-- Embeds the lockstep walk of `VectorClock::compare`, which accumulates the
two flags `self_less` and `other_less` over both sorted maps.  The first
argument is fuel bounding the number of loop iterations; `compare` passes the
exact number the Rust loop performs, one per consumed entry. -/
def compareWalk : Nat → List (String × Nat) → List (String × Nat) → Bool × Bool
  | 0, _, _ => (false, false)
  | _ + 1, [], [] => (false, false)
  | fuel + 1, (_, v1) :: t1, [] =>
    -- Case 4: self has remaining peer ids after other is exhausted
    let r := compareWalk fuel t1 []
    (r.1, decide (0 < v1) || r.2)
  | fuel + 1, [], (_, v2) :: t2 =>
    -- Case 5: other has remaining peer ids after self is exhausted
    let r := compareWalk fuel [] t2
    (decide (0 < v2) || r.1, r.2)
  | fuel + 1, (k1, v1) :: t1, (k2, v2) :: t2 =>
    if k1 = k2 then
      -- Case 1: both clocks have the same peer id
      let r := compareWalk fuel t1 t2
      (decide (v1 < v2) || r.1, decide (v2 < v1) || r.2)
    else if strLt k1 k2 then
      -- Case 2: self has a peer id that other does not have
      let r := compareWalk fuel t1 ((k2, v2) :: t2)
      (r.1, decide (0 < v1) || r.2)
    else
      -- Case 3: other has a peer id that self does not have
      let r := compareWalk fuel ((k1, v1) :: t1) t2
      (decide (0 < v2) || r.1, r.2)

/-- Embeds `VectorClock::compare`, combining the two walk flags into the
verdict exactly as the final `match` of the source. -/
def VectorClock.compare (c other : VectorClock) : ClockOrdering :=
  match compareWalk (c.clock.length + other.clock.length) c.clock other.clock with
  | (false, false) => ClockOrdering.Equal
  | (true, false) => ClockOrdering.Less
  | (false, true) => ClockOrdering.Greater
  | (true, true) => ClockOrdering.Concurrent

/-- Spec-side verdict: the domination rule with missing keys treated as zero,
quantifying over the keys present in either clock, exactly as the claim
states it. -/
def dominationVerdict (a b : VectorClock) : ClockOrdering :=
  let keys := a.clock.map Prod.fst ++ b.clock.map Prod.fst
  let self_less := keys.any (fun k => decide (vcGet a.clock k < vcGet b.clock k))
  let other_less := keys.any (fun k => decide (vcGet b.clock k < vcGet a.clock k))
  match self_less, other_less with
  | false, false => ClockOrdering.Equal
  | true, false => ClockOrdering.Less
  | false, true => ClockOrdering.Greater
  | true, true => ClockOrdering.Concurrent

/-! ## JSON values (`serde_json::Value`)

Numbers are modelled as integers; none of the checked claims depends on
numeric representation.  Objects are association lists kept sorted by key,
matching the `BTreeMap` backing of `serde_json::Map`. -/

/-- Embeds `serde_json::Value`. -/
inductive Json where
  | null : Json
  | bool (b : Bool) : Json
  | num (n : Int) : Json
  | str (s : String) : Json
  | arr (xs : List Json) : Json
  | obj (fields : List (String × Json)) : Json

mutual

/-- Structural equality of JSON values, the `PartialEq` of `serde_json`. -/
def Json.beq : Json → Json → Bool
  | .null, .null => true
  | .bool a, .bool b => a == b
  | .num a, .num b => a == b
  | .str a, .str b => a == b
  | .arr xs, .arr ys => Json.beqList xs ys
  | .obj fs, .obj gs => Json.beqFields fs gs
  | _, _ => false

/-- Structural equality of JSON arrays. -/
def Json.beqList : List Json → List Json → Bool
  | [], [] => true
  | x :: xs, y :: ys => Json.beq x y && Json.beqList xs ys
  | _, _ => false

/-- Structural equality of JSON object field lists. -/
def Json.beqFields : List (String × Json) → List (String × Json) → Bool
  | [], [] => true
  | (k, v) :: fs, (k2, v2) :: gs => k == k2 && Json.beq v v2 && Json.beqFields fs gs
  | _, _ => false

end

/-- Lookup in a JSON object, the effect of `Map::get`. -/
def objGet (fields : List (String × Json)) (k : String) : Option Json :=
  (fields.find? (fun p => p.1 == k)).map (fun p => p.2)

/-- Sorted insert-or-replace in a JSON object, the effect of `Map::insert`
(and of the `entry(..).or_insert_with(..)` navigation). -/
def objInsert : List (String × Json) → String → Json → List (String × Json)
  | [], k, v => [(k, v)]
  | (k2, v2) :: t, k, v =>
    if k = k2 then (k, v) :: t
    else if strLt k k2 then (k, v) :: (k2, v2) :: t
    else (k2, v2) :: objInsert t k v

/-- Removal from a JSON object, the effect of `Map::remove`. -/
def objRemove : List (String × Json) → String → List (String × Json)
  | [], _ => []
  | (k2, v2) :: t, k => if k = k2 then t else (k2, v2) :: objRemove t k

/-! ## Serialized memory data

The source keeps `memory_data` as a `String` and re-parses it with
`serde_json::from_str` on each operation, re-serializing with `to_string`
afterwards.  We model that string abstractly as either the valid rendering of
a JSON value or ill-formed text, which is exactly the distinction the source
observes. -/

/-- Models a `memory_data` string: the rendering of a JSON value, or text
that `serde_json::from_str` rejects. -/
inductive JsonText where
  | valid (j : Json) : JsonText
  | invalid : JsonText

/-- Embeds the `CrdtError` enum of `sync/crdt.rs`. -/
inductive CrdtError where
  | InvalidMemoryData
  | InvalidTimestamp
  | OperationFailed (msg : String)
  deriving DecidableEq

/-- Models `serde_json::from_str` on `memory_data`, mapped to
`CrdtError::InvalidMemoryData` as in each `apply_*_operation`. -/
def parseMemoryData : JsonText → Except CrdtError Json
  | .valid j => Except.ok j
  | .invalid => Except.error CrdtError.InvalidMemoryData

/-- Models `serde_json::Value::to_string`. -/
def renderJson (j : Json) : JsonText := JsonText.valid j

/-! ## CRDT data model (`sync/crdt.rs`) -/

/-- Embeds the `OperationType` enum. -/
inductive OperationType where
  | Set
  | Delete
  | Append
  | Merge
  deriving DecidableEq

/-- Embeds the `ConflictStrategy` enum. -/
inductive ConflictStrategy where
  | LastWriterWins
  | OperationalTransform
  | ManualResolution
  deriving DecidableEq

/-- Embeds `sync::manager::ConflictType`. -/
inductive ConflictType where
  | ContentMismatch
  | TimestampConflict
  | SignatureConflict
  deriving DecidableEq

/-- Embeds `MemoryOperation`.  The RFC 3339 `timestamp` string is modelled as
the parsed instant, `none` standing for text that
`DateTime::parse_from_rfc3339` rejects. -/
structure MemoryOperation where
  operation_id : String
  operation_type : OperationType
  field_path : String
  value : Json
  vector_clock : VectorClock
  timestamp : Option Nat

/-- Embeds the `SignedMemory` record as the CRDT layer uses it
(`core/models.rs`); `memory_data` is the serialized JSON payload and
`updated_on` the instant of the last rewrite. -/
structure SignedMemory where
  id : String
  did : String
  memory_type : String
  memory_data : JsonText
  content_hash : String
  signature : String
  timestamp : Nat
  updated_on : Nat

/-- Embeds `MergeMetadata`. -/
structure MergeMetadata where
  merged_from : List String
  conflict_resolution_strategy : ConflictStrategy
  last_merge_timestamp : Nat

/-- Embeds `CrdtMemory`.  The `operation_index` hash set is a list with
membership semantics. -/
structure CrdtMemory where
  base_memory : SignedMemory
  vector_clock : VectorClock
  operations : List MemoryOperation
  operation_index : List String
  merge_metadata : MergeMetadata

/-- Embeds `ConflictInfo`. -/
structure ConflictInfo where
  field_path : String
  local_operation : MemoryOperation
  remote_operation : MemoryOperation
  conflict_type : ConflictType

/-- Accumulator loop splitting a character list at dots. -/
def splitPathAux : List Char → List Char → List String
  | [], acc => [String.mk acc.reverse]
  | c :: rest, acc =>
    if c = '.' then String.mk acc.reverse :: splitPathAux rest []
    else splitPathAux rest (c :: acc)

/-- Splits a dot-separated field path, the `field_path.split('.')` of the
source: the empty path gives one empty part, and the result is never
empty. -/
def splitPath (p : String) : List String := splitPathAux p.data []

/-- Embeds `CrdtMemory::finalize_change`: rewrite `memory_data`, recompute
`content_hash` with the supplied hash function (SHA-256 hex in the source),
and bump `updated_on`. -/
def finalizeChange (hashFn : JsonText → String) (s : CrdtMemory) (data : Json)
    (now : Nat) : CrdtMemory :=
  { s with base_memory :=
    { s.base_memory with
        memory_data := renderJson data
        content_hash := hashFn (renderJson data)
        updated_on := now } }

/-- Embeds the navigation-and-assignment loop of `apply_set_operation`:
walk the dot path creating empty objects for missing intermediate keys,
insert at the leaf, and fail when the current position is not an object. -/
def setAt (j : Json) (parts : List String) (v : Json) : Except CrdtError Json :=
  match parts with
  | [] => Except.ok j
  | p :: rest =>
    match j with
    | .obj fields =>
      if rest.isEmpty then Except.ok (Json.obj (objInsert fields p v))
      else
        match setAt ((objGet fields p).getD (Json.obj [])) rest v with
        | .ok child => Except.ok (Json.obj (objInsert fields p child))
        | .error e => Except.error e
    | _ => Except.error (CrdtError.OperationFailed ("Path " ++ p ++ " is not an object"))

/-- Embeds the final append of `apply_append_operation`: push onto an array;
for a string target concatenate `value.as_str()` when the value is a string
and leave the target unchanged otherwise; any other target fails. -/
def appendLeaf (j : Json) (v : Json) : Except CrdtError Json :=
  match j with
  | .arr xs => Except.ok (Json.arr (xs ++ [v]))
  | .str s =>
    match v with
    | .str s2 => Except.ok (Json.str (s ++ s2))
    | _ => Except.ok (Json.str s)
  | _ => Except.error (CrdtError.OperationFailed "Target is not appendable")

/-- Embeds the navigation loop of `apply_append_operation`: on an object,
descend into the entry (inserting `Null` when missing); on any other value
the loop body does nothing and the remaining path parts are consumed. -/
def appendAt (j : Json) (parts : List String) (v : Json) : Except CrdtError Json :=
  match parts with
  | [] => appendLeaf j v
  | p :: rest =>
    match j with
    | .obj fields =>
      match appendAt ((objGet fields p).getD Json.null) rest v with
      | .ok child => Except.ok (Json.obj (objInsert fields p child))
      | .error e => Except.error e
    | _ => appendAt j rest v

/-- Embeds the navigation loop of `apply_delete_operation`.  `none` models
the early `return Ok(())` taken when an intermediate key is missing, which
skips `finalize_change`; on a non-object the loop body does nothing and the
remaining parts are consumed. -/
def deleteAt (j : Json) (parts : List String) : Option Json :=
  match parts with
  | [] => some j
  | p :: rest =>
    match j with
    | .obj fields =>
      if rest.isEmpty then some (Json.obj (objRemove fields p))
      else
        match objGet fields p with
        | some child => (deleteAt child rest).map (fun c => Json.obj (objInsert fields p c))
        | none => none
    | _ => deleteAt j rest

/-- Embeds `merge_json_values`: object fields combine with new keys
overwriting, arrays concatenate, anything else is overwritten by the new
value.  The Rust function returns `Result` but never an error. -/
def mergeJsonValues (existing new : Json) : Json :=
  match existing, new with
  | .obj e, .obj n => Json.obj (n.foldl (fun acc kv => objInsert acc kv.1 kv.2) e)
  | .arr e, .arr n => Json.arr (e ++ n)
  | _, n => n

/-- Embeds the navigation-and-merge loop of `apply_merge_operation`. -/
def mergeAt (j : Json) (parts : List String) (v : Json) : Except CrdtError Json :=
  match parts with
  | [] => Except.ok j
  | p :: rest =>
    match j with
    | .obj fields =>
      if rest.isEmpty then
        Except.ok (Json.obj (objInsert fields p
          (mergeJsonValues ((objGet fields p).getD Json.null) v)))
      else
        match mergeAt ((objGet fields p).getD (Json.obj [])) rest v with
        | .ok child => Except.ok (Json.obj (objInsert fields p child))
        | .error e => Except.error e
    | _ => Except.error (CrdtError.OperationFailed ("Path " ++ p ++ " is not an object"))

/-- Embeds `apply_set_operation` at the state level. -/
def applySetOperation (hashFn : JsonText → String) (s : CrdtMemory)
    (op : MemoryOperation) (now : Nat) : Except CrdtError CrdtMemory :=
  match parseMemoryData s.base_memory.memory_data with
  | .error e => Except.error e
  | .ok data =>
    match setAt data (splitPath op.field_path) op.value with
    | .ok data2 => Except.ok (finalizeChange hashFn s data2 now)
    | .error e => Except.error e

/-- Embeds `apply_delete_operation` at the state level; a missing path is a
completed deletion that skips `finalize_change`. -/
def applyDeleteOperation (hashFn : JsonText → String) (s : CrdtMemory)
    (op : MemoryOperation) (now : Nat) : Except CrdtError CrdtMemory :=
  match parseMemoryData s.base_memory.memory_data with
  | .error e => Except.error e
  | .ok data =>
    match deleteAt data (splitPath op.field_path) with
    | none => Except.ok s
    | some data2 => Except.ok (finalizeChange hashFn s data2 now)

/-- Embeds `apply_append_operation` at the state level. -/
def applyAppendOperation (hashFn : JsonText → String) (s : CrdtMemory)
    (op : MemoryOperation) (now : Nat) : Except CrdtError CrdtMemory :=
  match parseMemoryData s.base_memory.memory_data with
  | .error e => Except.error e
  | .ok data =>
    match appendAt data (splitPath op.field_path) op.value with
    | .ok data2 => Except.ok (finalizeChange hashFn s data2 now)
    | .error e => Except.error e

/-- Embeds `apply_merge_operation` at the state level. -/
def applyMergeOperation (hashFn : JsonText → String) (s : CrdtMemory)
    (op : MemoryOperation) (now : Nat) : Except CrdtError CrdtMemory :=
  match parseMemoryData s.base_memory.memory_data with
  | .error e => Except.error e
  | .ok data =>
    match mergeAt data (splitPath op.field_path) op.value with
    | .ok data2 => Except.ok (finalizeChange hashFn s data2 now)
    | .error e => Except.error e

/-- Dispatch on `operation_type`, the `match` inside `apply_operation`. -/
def dispatchOp (hashFn : JsonText → String) (s : CrdtMemory)
    (op : MemoryOperation) (now : Nat) : Except CrdtError CrdtMemory :=
  match op.operation_type with
  | .Set => applySetOperation hashFn s op now
  | .Delete => applyDeleteOperation hashFn s op now
  | .Append => applyAppendOperation hashFn s op now
  | .Merge => applyMergeOperation hashFn s op now

/-- Embeds `CrdtMemory::apply_operation`.  Mirrors the mutation order of the
source: the duplicate check first, then the vector-clock update and
increment, then the dispatched mutation; on a dispatch error the state with
the already-updated clock is returned, as `&mut self` keeps it in Rust. -/
def applyOperation (hashFn : JsonText → String) (s : CrdtMemory)
    (op : MemoryOperation) (peer_id : String) (now : Nat) :
    Except CrdtError Unit × CrdtMemory :=
  if s.operation_index.contains op.operation_id then (Except.ok (), s)
  else
    let s1 : CrdtMemory :=
      { s with vector_clock := (s.vector_clock.update op.vector_clock).increment peer_id }
    match dispatchOp hashFn s1 op now with
    | .error e => (Except.error e, s1)
    | .ok s2 =>
      (Except.ok (),
        { s2 with
            operation_index := op.operation_id :: s2.operation_index
            operations := s2.operations ++ [op]
            merge_metadata := { s2.merge_metadata with last_merge_timestamp := now } })

/-- Embeds `CrdtMemory::has_operation`. -/
def hasOperation (s : CrdtMemory) (operation_id : String) : Bool :=
  s.operations.any (fun op => op.operation_id == operation_id)

/-- Embeds the conflicting-set filter of `resolve_concurrent_operations`:
locally applied operations with the same `field_path` and a different
`value`. -/
def conflictingOps (s : CrdtMemory) (other_op : MemoryOperation) : List MemoryOperation :=
  s.operations.filter
    (fun op => op.field_path == other_op.field_path && !(Json.beq op.value other_op.value))

/-- Embeds the LastWriterWins timestamp scan: parse each conflicting local
timestamp in turn, stop with `false` at the first one not strictly below the
remote timestamp. -/
def lwwShouldApply (other_time : Nat) : List MemoryOperation → Except CrdtError Bool
  | [] => Except.ok true
  | op :: rest =>
    match op.timestamp with
    | none => Except.error CrdtError.InvalidTimestamp
    | some t => if t ≥ other_time then Except.ok false else lwwShouldApply other_time rest

/-- Embeds `transform_operation`: for a `Set` of two strings, combine them as
`local | remote`; every other case returns the operation unchanged. -/
def transformOperation (op : MemoryOperation) (conflicting : List MemoryOperation) :
    MemoryOperation :=
  match op.operation_type with
  | .Set =>
    match op.value, (conflicting.head?.map (fun o => o.value)) with
    | .str remote, some (Json.str loc) => { op with value := Json.str (loc ++ " | " ++ remote) }
    | _, _ => op
  | _ => op

/-- Fallback operation used only to express `conflicting_ops[0]` on a list
the caller has already checked to be nonempty. -/
def defaultOperation : MemoryOperation :=
  { operation_id := ""
    operation_type := OperationType.Set
    field_path := ""
    value := Json.null
    vector_clock := ⟨[]⟩
    timestamp := none }

/-- Embeds one iteration of the loop of `resolve_concurrent_operations` for a
single remote operation. -/
def resolveStep (hashFn : JsonText → String) (s : CrdtMemory)
    (other_op : MemoryOperation) (peer_id : String) (now : Nat) :
    Except CrdtError (List ConflictInfo) × CrdtMemory :=
  if hasOperation s other_op.operation_id then (Except.ok [], s)
  else
    if (conflictingOps s other_op).isEmpty then
      match applyOperation hashFn s other_op peer_id now with
      | (.ok _, s2) => (Except.ok [], s2)
      | (.error e, s2) => (Except.error e, s2)
    else
      match s.merge_metadata.conflict_resolution_strategy with
      | .LastWriterWins =>
        match other_op.timestamp with
        | none => (Except.error CrdtError.InvalidTimestamp, s)
        | some other_time =>
          match lwwShouldApply other_time (conflictingOps s other_op) with
          | .error e => (Except.error e, s)
          | .ok true =>
            match applyOperation hashFn s other_op peer_id now with
            | (.ok _, s2) => (Except.ok [], s2)
            | (.error e, s2) => (Except.error e, s2)
          | .ok false => (Except.ok [], s)
      | .OperationalTransform =>
        match applyOperation hashFn s
            (transformOperation other_op (conflictingOps s other_op)) peer_id now with
        | (.ok _, s2) => (Except.ok [], s2)
        | (.error e, s2) => (Except.error e, s2)
      | .ManualResolution =>
        (Except.ok
          [{ field_path := other_op.field_path
             local_operation := (conflictingOps s other_op).headD defaultOperation
             remote_operation := other_op
             conflict_type := ConflictType.ContentMismatch }], s)

/-- Embeds the loop of `resolve_concurrent_operations` over the remote
operation log, threading the state and accumulating conflicts. -/
def resolveLoop (hashFn : JsonText → String) (s : CrdtMemory)
    (ops : List MemoryOperation) (peer_id : String) (now : Nat) :
    Except CrdtError (List ConflictInfo) × CrdtMemory :=
  match ops with
  | [] => (Except.ok [], s)
  | op :: rest =>
    match resolveStep hashFn s op peer_id now with
    | (.error e, s2) => (Except.error e, s2)
    | (.ok cs, s2) =>
      match resolveLoop hashFn s2 rest peer_id now with
      | (.error e, s3) => (Except.error e, s3)
      | (.ok cs2, s3) => (Except.ok (cs ++ cs2), s3)

/-- Embeds `CrdtMemory::resolve_concurrent_operations`. -/
def resolveConcurrentOperations (hashFn : JsonText → String) (s : CrdtMemory)
    (other : CrdtMemory) (peer_id : String) (now : Nat) :
    Except CrdtError (List ConflictInfo) × CrdtMemory :=
  resolveLoop hashFn s other.operations peer_id now

/-- Embeds the `Less` branch of `merge_with`: apply every remote operation
whose id is not yet in the local index, in log order, stopping at the first
error. -/
def applyMissing (hashFn : JsonText → String) (s : CrdtMemory)
    (ops : List MemoryOperation) (peer_id : String) (now : Nat) :
    Except CrdtError Unit × CrdtMemory :=
  match ops with
  | [] => (Except.ok (), s)
  | op :: rest =>
    if s.operation_index.contains op.operation_id then
      applyMissing hashFn s rest peer_id now
    else
      match applyOperation hashFn s op peer_id now with
      | (.ok _, s2) => applyMissing hashFn s2 rest peer_id now
      | (.error e, s2) => (Except.error e, s2)

/-- Insertion step of the model of `sort_unstable` on `Vec<String>`. -/
def insertSortedStr (x : String) : List String → List String
  | [] => [x]
  | y :: t => if strLe x y then x :: y :: t else y :: insertSortedStr x t

/-- Sorts a list of strings, the effect of `Vec::sort_unstable`. -/
def sortStrings (l : List String) : List String := l.foldr insertSortedStr []

/-- Removes consecutive duplicates, the effect of `Vec::dedup`. -/
def dedupAdj : List String → List String
  | [] => []
  | [x] => [x]
  | x :: y :: t => if x = y then dedupAdj (y :: t) else x :: dedupAdj (y :: t)

/-- Embeds the `merged_from` bookkeeping at the end of `merge_with`: extend
with the other clocks contributors, sort, deduplicate. -/
def mergeMergedFrom (s : CrdtMemory) (other : CrdtMemory) : CrdtMemory :=
  { s with merge_metadata :=
    { s.merge_metadata with
        merged_from :=
          dedupAdj (sortStrings (s.merge_metadata.merged_from ++
            other.merge_metadata.merged_from)) } }

/-- Embeds `CrdtMemory::merge_with`.  `Greater` and `Equal` return early,
before the `merged_from` bookkeeping; an error in either application loop
propagates, also skipping that bookkeeping. -/
def mergeWith (hashFn : JsonText → String) (s : CrdtMemory) (other : CrdtMemory)
    (peer_id : String) (now : Nat) :
    Except CrdtError (List ConflictInfo) × CrdtMemory :=
  match s.vector_clock.compare other.vector_clock with
  | .Greater => (Except.ok [], s)
  | .Equal => (Except.ok [], s)
  | .Less =>
    match applyMissing hashFn s other.operations peer_id now with
    | (.error e, s2) => (Except.error e, s2)
    | (.ok _, s2) => (Except.ok [], mergeMergedFrom s2 other)
  | .Concurrent =>
    match resolveConcurrentOperations hashFn s other peer_id now with
    | (.error e, s2) => (Except.error e, s2)
    | (.ok cs, s2) => (Except.ok cs, mergeMergedFrom s2 other)

/-- Coherence invariant of `operation_index`: it holds exactly the ids of the
logged operations, and ids in the log are unique.  The source maintains this
by inserting into both under the same guard (and `rebuild_index` restores it
after deserialization). -/
def IndexCoherent (s : CrdtMemory) : Prop :=
  (∀ id : String, s.operation_index.contains id = true ↔
    ∃ op ∈ s.operations, op.operation_id = id) ∧
  (s.operations.map (fun op => op.operation_id)).Nodup

/-- States that a remote operation is skipped by
`resolve_concurrent_operations` without being applied: it has a nonempty
conflicting set, and either the LastWriterWins timestamp scan decides
against applying it or the strategy defers to manual resolution. -/
def BlockedOp (s : CrdtMemory) (op : MemoryOperation) : Prop :=
  (conflictingOps s op).isEmpty = false ∧
  ((s.merge_metadata.conflict_resolution_strategy = ConflictStrategy.LastWriterWins ∧
    ∃ ot, op.timestamp = some ot ∧
      lwwShouldApply ot (conflictingOps s op) = Except.ok false) ∨
   s.merge_metadata.conflict_resolution_strategy = ConflictStrategy.ManualResolution)

/-! ## SHA-256 (the `sha2` crate as used by `compute_hash` and
`generate_plc_id`)

Implemented from FIPS 180-4 over byte lists, with 32-bit words as `Nat`
reduced modulo `2 ^ 32`. -/

/-- Modulus of 32-bit words. -/
def M32 : Nat := 4294967296

/-- Right rotation of a 32-bit word. -/
def rotr32 (n x : Nat) : Nat := x / 2 ^ n + x % 2 ^ n * 2 ^ (32 - n)

/-- Logical right shift of a 32-bit word. -/
def shr32 (n x : Nat) : Nat := x / 2 ^ n

/-- Bitwise complement of a 32-bit word. -/
def not32 (x : Nat) : Nat := M32 - 1 - x % M32

/-- Big sigma-0 function of SHA-256. -/
def bigSigma0 (x : Nat) : Nat := (rotr32 2 x ^^^ rotr32 13 x) ^^^ rotr32 22 x

/-- Big sigma-1 function of SHA-256. -/
def bigSigma1 (x : Nat) : Nat := (rotr32 6 x ^^^ rotr32 11 x) ^^^ rotr32 25 x

/-- Small sigma-0 function of SHA-256. -/
def smallSigma0 (x : Nat) : Nat := (rotr32 7 x ^^^ rotr32 18 x) ^^^ shr32 3 x

/-- Small sigma-1 function of SHA-256. -/
def smallSigma1 (x : Nat) : Nat := (rotr32 17 x ^^^ rotr32 19 x) ^^^ shr32 10 x

/-- Choice function of SHA-256. -/
def chFn (e f g : Nat) : Nat := (e &&& f) ^^^ (not32 e &&& g)

/-- Majority function of SHA-256. -/
def majFn (a b c : Nat) : Nat := ((a &&& b) ^^^ (a &&& c)) ^^^ (b &&& c)

/-- Round constants of SHA-256 (FIPS 180-4 §4.2.2, `K_0 … K_63`, written in
decimal: `1116352408 = 0x428a2f98` and so on). -/
def sha256K : List Nat :=
  [1116352408, 1899447441, 3049323471, 3921009573, 961987163, 1508970993,
   2453635748, 2870763221, 3624381080, 310598401, 607225278, 1426881987,
   1925078388, 2162078206, 2614888103, 3248222580, 3835390401, 4022224774,
   264347078, 604807628, 770255983, 1249150122, 1555081692, 1996064986,
   2554220882, 2821834349, 2952996808, 3210313671, 3336571891, 3584528711,
   113926993, 338241895, 666307205, 773529912, 1294757372, 1396182291,
   1695183700, 1986661051, 2177026350, 2456956037, 2730485921, 2820302411,
   3259730800, 3345764771, 3516065817, 3600352804, 4094571909, 275423344,
   430227734, 506948616, 659060556, 883997877, 958139571, 1322822218,
   1537002063, 1747873779, 1955562222, 2024104815, 2227730452, 2361852424,
   2428436474, 2756734187, 3204031479, 3329325298]

/-- Initial hash state of SHA-256 (FIPS 180-4 §5.3.3, `H_0 … H_7`, in
decimal: `1779033703 = 0x6a09e667` and so on). -/
def sha256H0 : List Nat :=
  [1779033703, 3144134277, 1013904242, 2773480762,
   1359893119, 2600822924, 528734635, 1541459225]

/-- FIPS 180-4 message padding: a `0x80` byte, zeros to 56 mod 64, then the
bit length as 8 big-endian bytes. -/
def sha256Pad (msg : List Nat) : List Nat :=
  let L := msg.length
  let k := (120 - (L + 1) % 64) % 64
  let bitLen := 8 * L
  msg ++ [128] ++ List.replicate k 0 ++
    [bitLen / 2 ^ 56 % 256, bitLen / 2 ^ 48 % 256, bitLen / 2 ^ 40 % 256,
     bitLen / 2 ^ 32 % 256, bitLen / 2 ^ 24 % 256, bitLen / 2 ^ 16 % 256,
     bitLen / 2 ^ 8 % 256, bitLen % 256]

/-- Splits a list into chunks of `k` elements; the first argument is fuel and
callers pass the list length. -/
def chunksOf (k : Nat) : Nat → List Nat → List (List Nat)
  | _, [] => []
  | 0, l => [l]
  | fuel + 1, l => l.take k :: chunksOf k fuel (l.drop k)

/-- Big-endian 32-bit words of a 64-byte block. -/
def wordsOfBlock : List Nat → List Nat
  | b0 :: b1 :: b2 :: b3 :: rest =>
    (((b0 * 256 + b1) * 256 + b2) * 256 + b3) :: wordsOfBlock rest
  | _ => []

/-- One extension step of the SHA-256 message schedule. -/
def scheduleStep (w : List Nat) : List Nat :=
  let l := w.length
  w ++ [(smallSigma1 (w.getD (l - 2) 0) + w.getD (l - 7) 0 +
    smallSigma0 (w.getD (l - 15) 0) + w.getD (l - 16) 0) % M32]

/-- Extends the 16 block words to the 64 schedule words. -/
def extendSchedule : Nat → List Nat → List Nat
  | 0, w => w
  | n + 1, w => extendSchedule n (scheduleStep w)

/-- Working-variable tuple of the SHA-256 compression loop. -/
def roundStep (st : Nat × Nat × Nat × Nat × Nat × Nat × Nat × Nat)
    (kw : Nat × Nat) : Nat × Nat × Nat × Nat × Nat × Nat × Nat × Nat :=
  match st with
  | (a, b, c, d, e, f, g, hh) =>
    let t1 := (hh + bigSigma1 e + chFn e f g + kw.1 + kw.2) % M32
    let t2 := (bigSigma0 a + majFn a b c) % M32
    ((t1 + t2) % M32, a, b, c, (d + t1) % M32, e, f, g)

/-- Compression of one 64-byte block into the running hash state. -/
def compressBlock (hs : List Nat) (block : List Nat) : List Nat :=
  let ws := extendSchedule 48 (wordsOfBlock block)
  match hs with
  | [a0, b0, c0, d0, e0, f0, g0, h0] =>
    let r := (sha256K.zip ws).foldl roundStep (a0, b0, c0, d0, e0, f0, g0, h0)
    [(a0 + r.1) % M32, (b0 + r.2.1) % M32, (c0 + r.2.2.1) % M32, (d0 + r.2.2.2.1) % M32,
     (e0 + r.2.2.2.2.1) % M32, (f0 + r.2.2.2.2.2.1) % M32, (g0 + r.2.2.2.2.2.2.1) % M32,
     (h0 + r.2.2.2.2.2.2.2) % M32]
  | _ => hs

/-- Big-endian bytes of a 32-bit word. -/
def word32Bytes (w : Nat) : List Nat :=
  [w / 2 ^ 24 % 256, w / 2 ^ 16 % 256, w / 2 ^ 8 % 256, w % 256]

/-- SHA-256 digest (32 bytes) of a byte list. -/
def sha256 (msg : List Nat) : List Nat :=
  let padded := sha256Pad msg
  let final := (chunksOf 64 padded.length padded).foldl compressBlock sha256H0
  (final.map word32Bytes).flatten

/-- UTF-8 encoding of one code point. -/
def utf8Bytes (c : Nat) : List Nat :=
  if c < 128 then [c]
  else if c < 2048 then [192 + c / 64, 128 + c % 64]
  else if c < 65536 then [224 + c / 4096, 128 + c / 64 % 64, 128 + c % 64]
  else [240 + c / 262144, 128 + c / 4096 % 64, 128 + c / 64 % 64, 128 + c % 64]

/-- UTF-8 bytes of a string, the `as_bytes` view Rust hashes. -/
def strBytes (s : String) : List Nat :=
  (s.data.map (fun ch => utf8Bytes ch.toNat)).flatten

/-- Lowercase hexadecimal digits. -/
def hexDigits : List Char := "0123456789abcdef".data

/-- Two lowercase hex characters of a byte. -/
def byteHex (b : Nat) : List Char :=
  [hexDigits.getD (b / 16) '0', hexDigits.getD (b % 16) '0']

/-- Embeds `SignedMemory::compute_hash`: lowercase hex of the SHA-256 of the
UTF-8 bytes (`hex::encode(Sha256::digest(data))`). -/
def sha256hex (data : String) : String :=
  String.mk (((sha256 (strBytes data)).map byteHex).flatten)

/-! ## Base32 and DID derivation (`identity/plc.rs`) -/

/-- Bits of a byte, most significant first. -/
def byteBits (b : Nat) : List Bool :=
  [b / 128 % 2 == 1, b / 64 % 2 == 1, b / 32 % 2 == 1, b / 16 % 2 == 1,
   b / 8 % 2 == 1, b / 4 % 2 == 1, b / 2 % 2 == 1, b % 2 == 1]

/-- Bit stream of a byte list, most significant bit first. -/
def bytesToBits (bs : List Nat) : List Bool := (bs.map byteBits).flatten

/-- Groups a bit stream into 5-bit quantums; the trailing quantum may be
shorter and is zero-padded by `bits5Val`. -/
def chunks5 : List Bool → List (List Bool)
  | [] => []
  | [a] => [[a]]
  | [a, b] => [[a, b]]
  | [a, b, c] => [[a, b, c]]
  | [a, b, c, d] => [[a, b, c, d]]
  | a :: b :: c :: d :: e :: rest => [a, b, c, d, e] :: chunks5 rest

/-- Value of a 5-bit quantum, right-padded with zero bits (RFC 4648). -/
def bits5Val (g : List Bool) : Nat :=
  (g ++ List.replicate (5 - g.length) false).foldl
    (fun a b => 2 * a + (if b then 1 else 0)) 0

/-- Lowercase RFC 4648 base32 alphabet, the uppercase alphabet of the
`base32` crate after `to_lowercase`. -/
def base32Alphabet : List Char := "abcdefghijklmnopqrstuvwxyz234567".data

/-- Embeds `encode_base32_no_padding`:
`base32::encode(RFC4648 { padding: false }, data).to_lowercase()`. -/
def encodeBase32NoPadding (data : List Nat) : String :=
  String.mk ((chunks5 (bytesToBits data)).map
    (fun g => base32Alphabet.getD (bits5Val g) 'a'))

/-- Embeds `generate_plc_id` (identical in `PlcDirectory` and `PlcIdentity`):
hash `"did:plc:" || public_key` with SHA-256, truncate to 24 bytes, base32
encode without padding, lowercase. -/
def generate_plc_id (public_key : List Nat) : String :=
  encodeBase32NoPadding ((sha256 (strBytes "did:plc:" ++ public_key)).take 24)

/-- Embeds the DID assembly of `create_identity` and `PlcIdentity::generate`:
`format!("did:plc:{}", generate_plc_id(pub))`. -/
def didFor (public_key : List Nat) : String := "did:plc:" ++ generate_plc_id public_key

/-! ## Signed memories at the string level (`core/models.rs`,
`identity/plc.rs`) -/

namespace Plc

/-- Embeds the `SignedMemory` record with its original string-typed fields,
as the identity layer consumes it. -/
structure SignedMemory where
  id : String
  did : String
  memory_type : String
  memory_data : String
  content_hash : String
  signature : String
  timestamp : String
  updated_on : String

/-- Embeds `SignedMemory::compute_hash`. -/
def compute_hash (data : String) : String := sha256hex data

/-- Embeds `SignedMemory::verify_hash`: recompute and compare to the stored
`content_hash`. -/
def SignedMemory.verify_hash (m : SignedMemory) : Bool :=
  compute_hash m.memory_data == m.content_hash

/-- JSON string escaping of one character as `serde_json` renders it (quote
and backslash; the claims do not depend on control-character escapes). -/
def jsonEscapeChar (c : Char) : String :=
  if c = '\\' then "\\\\" else if c = '"' then "\\\"" else String.singleton c

/-- JSON string escaping. -/
def jsonEscape (s : String) : String := String.join (s.data.map jsonEscapeChar)

/-- Embeds `SignedMemory::get_signing_payload`: the compact rendering of the
object with keys `content_hash`, `did`, `memory_type`, `timestamp` — the
alphabetical key order `serde_json::json!` produces from its `BTreeMap`
backing. -/
def SignedMemory.get_signing_payload (m : SignedMemory) : String :=
  "\x7b\"content_hash\":\"" ++ jsonEscape m.content_hash ++
  "\",\"did\":\"" ++ jsonEscape m.did ++
  "\",\"memory_type\":\"" ++ jsonEscape m.memory_type ++
  "\",\"timestamp\":\"" ++ jsonEscape m.timestamp ++ "\"\x7d"

/-- Embeds `PlcIdentity::verify_memory`.  The base64 decoding of the stored
public key and signature and the Ed25519 check itself come from external
crates and are passed in as parameters; `public_key` is
`self.keypair.public_key`.  The hash is checked first and a mismatch answers
`Ok(false)` before any of the externals run. -/
def verify_memory {K S : Type} (decodeKey : String → Except String K)
    (decodeSig : String → Except String S) (edVerify : K → String → S → Bool)
    (public_key : String) (m : SignedMemory) : Except String Bool :=
  if m.verify_hash = false then Except.ok false
  else
    match decodeKey public_key with
    | .error e => Except.error e
    | .ok pk =>
      match decodeSig m.signature with
      | .error e => Except.error e
      | .ok sg => Except.ok (edVerify pk m.get_signing_payload sg)

end Plc

/-! ## Claim tokens (`core/models.rs`) -/

/-- Embeds `ClaimToken`.  Timestamp strings are modelled as parsed instants;
`expiry_timestamp` is `none` for text that RFC 3339 parsing rejects, which
`is_expired` treats as already expired. -/
structure ClaimToken where
  id : String
  token : String
  memory_id : String
  organization_did : String
  expiry_timestamp : Option Nat
  claimed_by_did : Option String
  claimed_timestamp : Option Nat
  created_timestamp : Nat
  updated_on : Nat
  deriving DecidableEq

/-- Embeds `ClaimToken::is_expired` at instant `now`. -/
def ClaimToken.is_expired (t : ClaimToken) (now : Nat) : Bool :=
  match t.expiry_timestamp with
  | some expiry => decide (now > expiry)
  | none => true

/-- Embeds `ClaimToken::is_claimed`. -/
def ClaimToken.is_claimed (t : ClaimToken) : Bool := t.claimed_by_did.isSome

/-- Embeds `ClaimToken::claim`: reject when expired, then when already
claimed; otherwise set `claimed_by_did`, `claimed_timestamp` and
`updated_on`.  The token state is returned alongside the result, unchanged on
either rejection. -/
def ClaimToken.claim (t : ClaimToken) (claimer_did : String) (now : Nat) :
    Except String Unit × ClaimToken :=
  if t.is_expired now then (Except.error "Token has expired", t)
  else if t.is_claimed then (Except.error "Token has already been claimed", t)
  else
    (Except.ok (),
      { t with
          claimed_by_did := some claimer_did
          claimed_timestamp := some now
          updated_on := now })

/-! ## Per-IP rate limiter (`networking/protocol.rs`) -/

/-- Embeds the rate-limiting constants. -/
def MAX_MESSAGES_PER_MINUTE : Nat := 60

/-- Embeds `RATE_LIMIT_WINDOW_SECS`. -/
def RATE_LIMIT_WINDOW_SECS : Nat := 60

/-- Embeds `MessageCount`. -/
structure MessageCount where
  count : Nat
  window_start : Nat
  deriving DecidableEq

/-- Embeds the `message_counts` hash map of `RateLimiter` as a list with
lookup semantics. -/
abbrev RateLimiterState := List (String × MessageCount)

/-- Wrapping `u64` subtraction, the `now - window_start` of the source. -/
def u64Sub (a b : Nat) : Nat := (a % 2 ^ 64 + (2 ^ 64 - b % 2 ^ 64)) % 2 ^ 64

/-- Map lookup on the limiter state. -/
def rlLookup (st : RateLimiterState) (ip : String) : Option MessageCount :=
  (st.find? (fun e => e.1 == ip)).map (fun e => e.2)

/-- Map insert-or-replace on the limiter state. -/
def rlInsert : RateLimiterState → String → MessageCount → RateLimiterState
  | [], ip, mc => [(ip, mc)]
  | e :: t, ip, mc => if e.1 = ip then (ip, mc) :: t else e :: rlInsert t ip mc

/-- Embeds `cleanup_expired_windows`: retain entries younger than the
window. -/
def cleanupExpiredWindows (st : RateLimiterState) (now : Nat) : RateLimiterState :=
  st.filter (fun e => decide (u64Sub now e.2.window_start < RATE_LIMIT_WINDOW_SECS))

/-- Embeds `RateLimiter::check_rate_limit` at instant `now`: cleanup, fetch
or create the per-IP entry, reset it when the window has aged out, reject at
the cap, otherwise count the message.  Returns acceptance and the updated
state (the entry persists even on rejection, as `entry().or_insert` does). -/
def checkRateLimit (st : RateLimiterState) (peer_ip : String) (now : Nat) :
    Bool × RateLimiterState :=
  let st1 := cleanupExpiredWindows st now
  let mc0 := (rlLookup st1 peer_ip).getD ⟨0, now⟩
  let mc1 := if u64Sub now mc0.window_start ≥ RATE_LIMIT_WINDOW_SECS then
      (⟨0, now⟩ : MessageCount)
    else mc0
  if mc1.count ≥ MAX_MESSAGES_PER_MINUTE then (false, rlInsert st1 peer_ip mc1)
  else (true, rlInsert st1 peer_ip ⟨mc1.count + 1, mc1.window_start⟩)

/-- Runs a sequence of messages from one IP through the limiter, recording
each arrival instant with its acceptance verdict. -/
def runLimiter (ip : String) : List Nat → RateLimiterState → List (Nat × Bool)
  | [], _ => []
  | t :: ts, st =>
    match checkRateLimit st ip t with
    | (accepted, st2) => (t, accepted) :: runLimiter ip ts st2

/-- Number of accepted messages with arrival instant inside `[lo, hi]`. -/
def acceptedWithin (lo hi : Nat) (log : List (Nat × Bool)) : Nat :=
  (log.filter (fun e => decide (lo ≤ e.1) && decide (e.1 ≤ hi) && e.2)).length

/-! ## Helper lemmas: the string order -/

theorem charsLt_irrefl : ∀ l : List Char, charsLt l l = false
  | [] => rfl
  | c :: cs => by simp [charsLt, charsLt_irrefl cs]

theorem char_eq_of_toNat_eq {c d : Char} (h : c.toNat = d.toNat) : c = d := by
  rw [← Char.ofNat_toNat c, ← Char.ofNat_toNat d, h]

theorem charsLt_trans : ∀ {a b c : List Char},
    charsLt a b = true → charsLt b c = true → charsLt a c = true
  | [], _ :: _, _ :: _, _, _ => rfl
  | x :: xs, y :: ys, z :: zs, hab, hbc => by
    simp only [charsLt] at hab hbc ⊢
    by_cases h1 : x.toNat < y.toNat
    · by_cases h2 : y.toNat < z.toNat
      · rw [if_pos (Nat.lt_trans h1 h2)]
      · by_cases h3 : z.toNat < y.toNat
        · rw [if_neg h2, if_pos h3] at hbc
          exact absurd hbc (by simp)
        · have he : y.toNat = z.toNat := by omega
          rw [if_pos (he ▸ h1)]
    · by_cases h3 : y.toNat < x.toNat
      · rw [if_neg h1, if_pos h3] at hab
        exact absurd hab (by simp)
      · have he : x.toNat = y.toNat := by omega
        rw [if_neg h1, if_neg h3] at hab
        by_cases h2 : y.toNat < z.toNat
        · rw [if_pos (he ▸ h2)]
        · by_cases h4 : z.toNat < y.toNat
          · rw [if_neg h2, if_pos h4] at hbc
            exact absurd hbc (by simp)
          · have he2 : y.toNat = z.toNat := by omega
            rw [if_neg (by omega : ¬ x.toNat < z.toNat),
              if_neg (by omega : ¬ z.toNat < x.toNat)]
            rw [if_neg h2, if_neg h4] at hbc
            exact charsLt_trans hab hbc

theorem charsLt_eq_of_both_false : ∀ {a b : List Char},
    charsLt a b = false → charsLt b a = false → a = b
  | [], [], _, _ => rfl
  | [], _ :: _, hab, _ => by simp [charsLt] at hab
  | _ :: _, [], _, hba => by simp [charsLt] at hba
  | x :: xs, y :: ys, hab, hba => by
    simp only [charsLt] at hab hba
    by_cases h1 : x.toNat < y.toNat
    · rw [if_pos h1] at hab
      exact absurd hab (by simp)
    · by_cases h2 : y.toNat < x.toNat
      · rw [if_pos h2] at hba
        exact absurd hba (by simp)
      · rw [if_neg h1, if_neg h2] at hab
        rw [if_neg h2, if_neg h1] at hba
        have he : x.toNat = y.toNat := by omega
        rw [char_eq_of_toNat_eq he, charsLt_eq_of_both_false hab hba]

theorem strLt_irrefl (a : String) : strLt a a = false := charsLt_irrefl a.data

theorem strLt_trans {a b c : String} (hab : strLt a b = true) (hbc : strLt b c = true) :
    strLt a c = true := charsLt_trans hab hbc

theorem strLt_ne {a b : String} (h : strLt a b = true) : a ≠ b := by
  intro he
  rw [he, strLt_irrefl] at h
  exact Bool.false_ne_true h

theorem strLt_of_ne_of_not_lt {a b : String} (hne : a ≠ b) (h : strLt a b = false) :
    strLt b a = true := by
  cases hba : strLt b a
  · exact absurd (congrArg String.mk (charsLt_eq_of_both_false h hba)) (by
      cases a; cases b; simpa using hne)
  · rfl

theorem strLt_asymm {a b : String} (h : strLt a b = true) : strLt b a = false := by
  cases hba : strLt b a
  · rfl
  · exact absurd (strLt_trans h hba) (by simp [strLt_irrefl])

/-! ## Helper lemmas: vector-clock lookups and sortedness -/

theorem vcGet_nil (k : String) : vcGet [] k = 0 := rfl

theorem vcGet_cons (k2 : String) (v : Nat) (t : List (String × Nat)) (k : String) :
    vcGet ((k2, v) :: t) k = if k2 = k then v else vcGet t k := by
  by_cases h : k2 = k
  · simp [vcGet, vcEntry, List.find?, h]
  · simp only [vcGet, vcEntry, List.find?]
    have : ((k2, v).1 == k) = false := by simpa using h
    simp [this, h]

theorem mem_keys_of_vcGet_pos : ∀ {l : List (String × Nat)} {k : String},
    0 < vcGet l k → k ∈ l.map Prod.fst
  | [], k, h => by simp [vcGet_nil] at h
  | (k2, v) :: t, k, h => by
    rw [vcGet_cons] at h
    by_cases he : k2 = k
    · simp [he]
    · rw [if_neg he] at h
      simp [mem_keys_of_vcGet_pos h]

theorem vcGet_eq_zero_of_not_mem : ∀ {l : List (String × Nat)} {k : String},
    k ∉ l.map Prod.fst → vcGet l k = 0
  | [], _, _ => rfl
  | (k2, v) :: t, k, h => by
    simp only [List.map_cons, List.mem_cons] at h
    push_neg at h
    rw [vcGet_cons, if_neg (Ne.symm h.1)]
    exact vcGet_eq_zero_of_not_mem h.2

theorem vcSorted_tail {p : String × Nat} {t : List (String × Nat)}
    (h : vcSorted (p :: t) = true) : vcSorted t = true := by
  cases t with
  | nil => rfl
  | cons q r => exact (Bool.and_eq_true_iff.mp h).2

theorem vcSorted_head_lt : ∀ {p : String × Nat} {t : List (String × Nat)},
    vcSorted (p :: t) = true → ∀ k ∈ t.map Prod.fst, strLt p.1 k = true
  | _, [], _, k, hk => by simp at hk
  | p, q :: r, h, k, hk => by
    have h1 : strLt p.1 q.1 = true := (Bool.and_eq_true_iff.mp h).1
    have h2 : vcSorted (q :: r) = true := (Bool.and_eq_true_iff.mp h).2
    simp only [List.map_cons, List.mem_cons] at hk
    rcases hk with hk | hk
    · exact hk ▸ h1
    · exact strLt_trans h1 (vcSorted_head_lt h2 k (by simpa using hk))

theorem head_not_mem_of_sorted {p : String × Nat} {t : List (String × Nat)}
    (h : vcSorted (p :: t) = true) : p.1 ∉ t.map Prod.fst := by
  intro hmem
  have := vcSorted_head_lt h p.1 hmem
  rw [strLt_irrefl] at this
  exact Bool.false_ne_true this

theorem not_mem_keys_of_lt_head {k : String} {p : String × Nat}
    {t : List (String × Nat)} (hlt : strLt k p.1 = true)
    (h : vcSorted (p :: t) = true) : k ∉ (p :: t).map Prod.fst := by
  intro hmem
  simp only [List.map_cons, List.mem_cons] at hmem
  rcases hmem with hmem | hmem
  · exact strLt_ne hlt hmem
  · have := vcSorted_head_lt h k hmem
    have := strLt_trans hlt this
    rw [strLt_irrefl] at this
    exact Bool.false_ne_true this

/-! ## The compare walk computes the domination rule -/

theorem compareWalk_spec : ∀ (fuel : Nat) (a b : List (String × Nat)),
    a.length + b.length ≤ fuel → vcSorted a = true → vcSorted b = true →
    (((compareWalk fuel a b).1 = true) ↔ ∃ k, vcGet a k < vcGet b k) ∧
    (((compareWalk fuel a b).2 = true) ↔ ∃ k, vcGet b k < vcGet a k) := by
  intro fuel
  induction fuel with
  | zero =>
    intro a b hlen _ _
    have ha : a = [] := List.length_eq_zero.mp (by omega)
    have hb : b = [] := List.length_eq_zero.mp (by omega)
    subst ha; subst hb
    simp [compareWalk, vcGet_nil]
  | succ n ih =>
    intro a b hlen ha hb
    match a, b with
    | [], [] => simp [compareWalk, vcGet_nil]
    | (k1, v1) :: t1, [] =>
      have ht1 : vcSorted t1 = true := vcSorted_tail ha
      have hr := ih t1 [] (by simp at hlen ⊢; omega) ht1 rfl
      have hw : compareWalk (n + 1) ((k1, v1) :: t1) [] =
          ((compareWalk n t1 []).1, decide (0 < v1) || (compareWalk n t1 []).2) := rfl
      rw [hw]
      constructor
      · constructor
        · intro h
          rcases hr.1.mp h with ⟨k, hk⟩
          rw [vcGet_nil] at hk
          omega
        · intro ⟨k, hk⟩
          rw [vcGet_nil] at hk
          omega
      · constructor
        · intro h
          simp only [Bool.or_eq_true] at h
          rcases h with h | h
          · exact ⟨k1, by rw [vcGet_nil, vcGet_cons, if_pos rfl]; exact of_decide_eq_true h⟩
          · rcases hr.2.mp h with ⟨k, hk⟩
            rw [vcGet_nil] at hk
            have hne : k1 ≠ k := strLt_ne (vcSorted_head_lt ha k (mem_keys_of_vcGet_pos hk))
            exact ⟨k, by rw [vcGet_nil, vcGet_cons, if_neg hne]; exact hk⟩
        · intro ⟨k, hk⟩
          rw [vcGet_nil, vcGet_cons] at hk
          simp only [Bool.or_eq_true]
          by_cases hek : k1 = k
          · rw [if_pos hek] at hk
            exact Or.inl (decide_eq_true hk)
          · rw [if_neg hek] at hk
            exact Or.inr (hr.2.mpr ⟨k, by rw [vcGet_nil]; exact hk⟩)
    | [], (k2, v2) :: t2 =>
      have ht2 : vcSorted t2 = true := vcSorted_tail hb
      have hr := ih [] t2 (by simp at hlen ⊢; omega) rfl ht2
      have hw : compareWalk (n + 1) [] ((k2, v2) :: t2) =
          (decide (0 < v2) || (compareWalk n [] t2).1, (compareWalk n [] t2).2) := rfl
      rw [hw]
      constructor
      · constructor
        · intro h
          simp only [Bool.or_eq_true] at h
          rcases h with h | h
          · exact ⟨k2, by rw [vcGet_nil, vcGet_cons, if_pos rfl]; exact of_decide_eq_true h⟩
          · rcases hr.1.mp h with ⟨k, hk⟩
            rw [vcGet_nil] at hk
            have hne : k2 ≠ k := strLt_ne (vcSorted_head_lt hb k (mem_keys_of_vcGet_pos hk))
            exact ⟨k, by rw [vcGet_nil, vcGet_cons, if_neg hne]; exact hk⟩
        · intro ⟨k, hk⟩
          rw [vcGet_nil, vcGet_cons] at hk
          simp only [Bool.or_eq_true]
          by_cases hek : k2 = k
          · rw [if_pos hek] at hk
            exact Or.inl (decide_eq_true hk)
          · rw [if_neg hek] at hk
            exact Or.inr (hr.1.mpr ⟨k, by rw [vcGet_nil]; exact hk⟩)
      · constructor
        · intro h
          rcases hr.2.mp h with ⟨k, hk⟩
          rw [vcGet_nil] at hk
          omega
        · intro ⟨k, hk⟩
          rw [vcGet_nil] at hk
          omega
    | (k1, v1) :: t1, (k2, v2) :: t2 =>
      have ht1 : vcSorted t1 = true := vcSorted_tail ha
      have ht2 : vcSorted t2 = true := vcSorted_tail hb
      by_cases he : k1 = k2
      · subst he
        have hw : compareWalk (n + 1) ((k1, v1) :: t1) ((k1, v2) :: t2) =
            (decide (v1 < v2) || (compareWalk n t1 t2).1,
             decide (v2 < v1) || (compareWalk n t1 t2).2) := by
          simp [compareWalk]
        have hr := ih t1 t2 (by simp at hlen ⊢; omega) ht1 ht2
        rw [hw]
        constructor
        · constructor
          · intro h
            simp only [Bool.or_eq_true] at h
            rcases h with h | h
            · refine ⟨k1, ?_⟩
              rw [vcGet_cons, if_pos rfl, vcGet_cons, if_pos rfl]
              exact of_decide_eq_true h
            · rcases hr.1.mp h with ⟨k, hk⟩
              have hpos : 0 < vcGet t2 k := by omega
              have hne : k1 ≠ k := strLt_ne (vcSorted_head_lt hb k (mem_keys_of_vcGet_pos hpos))
              exact ⟨k, by rw [vcGet_cons, if_neg hne, vcGet_cons, if_neg hne]; exact hk⟩
          · intro ⟨k, hk⟩
            rw [vcGet_cons, vcGet_cons] at hk
            simp only [Bool.or_eq_true]
            by_cases hek : k1 = k
            · rw [if_pos hek, if_pos hek] at hk
              exact Or.inl (decide_eq_true hk)
            · rw [if_neg hek, if_neg hek] at hk
              exact Or.inr (hr.1.mpr ⟨k, hk⟩)
        · constructor
          · intro h
            simp only [Bool.or_eq_true] at h
            rcases h with h | h
            · refine ⟨k1, ?_⟩
              rw [vcGet_cons, if_pos rfl, vcGet_cons, if_pos rfl]
              exact of_decide_eq_true h
            · rcases hr.2.mp h with ⟨k, hk⟩
              have hpos : 0 < vcGet t1 k := by omega
              have hne : k1 ≠ k := strLt_ne (vcSorted_head_lt ha k (mem_keys_of_vcGet_pos hpos))
              exact ⟨k, by rw [vcGet_cons, if_neg hne, vcGet_cons, if_neg hne]; exact hk⟩
          · intro ⟨k, hk⟩
            rw [vcGet_cons, vcGet_cons] at hk
            simp only [Bool.or_eq_true]
            by_cases hek : k1 = k
            · rw [if_pos hek, if_pos hek] at hk
              exact Or.inl (decide_eq_true hk)
            · rw [if_neg hek, if_neg hek] at hk
              exact Or.inr (hr.2.mpr ⟨k, hk⟩)
      · by_cases hlt : strLt k1 k2 = true
        · have hw : compareWalk (n + 1) ((k1, v1) :: t1) ((k2, v2) :: t2) =
              ((compareWalk n t1 ((k2, v2) :: t2)).1,
               decide (0 < v1) || (compareWalk n t1 ((k2, v2) :: t2)).2) := by
            simp [compareWalk, he, hlt]
          have hr := ih t1 ((k2, v2) :: t2) (by simp at hlen ⊢; omega) ht1 hb
          have hk1b : vcGet ((k2, v2) :: t2) k1 = 0 :=
            vcGet_eq_zero_of_not_mem (not_mem_keys_of_lt_head hlt hb)
          rw [hw]
          constructor
          · constructor
            · intro h
              rcases hr.1.mp h with ⟨k, hk⟩
              have hpos : 0 < vcGet ((k2, v2) :: t2) k := by omega
              have hne : k1 ≠ k := by
                intro hkk
                rw [← hkk, hk1b] at hpos
                omega
              exact ⟨k, by rw [vcGet_cons, if_neg hne]; exact hk⟩
            · intro ⟨k, hk⟩
              rw [vcGet_cons] at hk
              by_cases hek : k1 = k
              · rw [if_pos hek] at hk
                rw [← hek, hk1b] at hk
                omega
              · rw [if_neg hek] at hk
                exact hr.1.mpr ⟨k, hk⟩
          · constructor
            · intro h
              simp only [Bool.or_eq_true] at h
              rcases h with h | h
              · exact ⟨k1, by rw [hk1b, vcGet_cons, if_pos rfl]; exact of_decide_eq_true h⟩
              · rcases hr.2.mp h with ⟨k, hk⟩
                have hpos : 0 < vcGet t1 k := by omega
                have hne : k1 ≠ k :=
                  strLt_ne (vcSorted_head_lt ha k (mem_keys_of_vcGet_pos hpos))
                exact ⟨k, by rw [vcGet_cons k1 v1 t1 k, if_neg hne]; exact hk⟩
            · intro ⟨k, hk⟩
              rw [vcGet_cons k1 v1 t1 k] at hk
              simp only [Bool.or_eq_true]
              by_cases hek : k1 = k
              · rw [if_pos hek] at hk
                rw [← hek, hk1b] at hk
                exact Or.inl (decide_eq_true hk)
              · rw [if_neg hek] at hk
                exact Or.inr (hr.2.mpr ⟨k, hk⟩)
        · have hf : strLt k1 k2 = false := by
            cases hx : strLt k1 k2
            · rfl
            · exact absurd hx hlt
          have hlt2 : strLt k2 k1 = true := strLt_of_ne_of_not_lt he hf
          have hw : compareWalk (n + 1) ((k1, v1) :: t1) ((k2, v2) :: t2) =
              (decide (0 < v2) || (compareWalk n ((k1, v1) :: t1) t2).1,
               (compareWalk n ((k1, v1) :: t1) t2).2) := by
            simp [compareWalk, he, hf]
          have hr := ih ((k1, v1) :: t1) t2 (by simp at hlen ⊢; omega) ha ht2
          have hk2a : vcGet ((k1, v1) :: t1) k2 = 0 :=
            vcGet_eq_zero_of_not_mem (not_mem_keys_of_lt_head hlt2 ha)
          rw [hw]
          constructor
          · constructor
            · intro h
              simp only [Bool.or_eq_true] at h
              rcases h with h | h
              · exact ⟨k2, by rw [hk2a, vcGet_cons, if_pos rfl]; exact of_decide_eq_true h⟩
              · rcases hr.1.mp h with ⟨k, hk⟩
                have hpos : 0 < vcGet t2 k := by omega
                have hne : k2 ≠ k :=
                  strLt_ne (vcSorted_head_lt hb k (mem_keys_of_vcGet_pos hpos))
                exact ⟨k, by rw [vcGet_cons k2 v2 t2 k, if_neg hne]; exact hk⟩
            · intro ⟨k, hk⟩
              rw [vcGet_cons k2 v2 t2 k] at hk
              simp only [Bool.or_eq_true]
              by_cases hek : k2 = k
              · rw [if_pos hek] at hk
                rw [← hek, hk2a] at hk
                exact Or.inl (decide_eq_true hk)
              · rw [if_neg hek] at hk
                exact Or.inr (hr.1.mpr ⟨k, hk⟩)
          · constructor
            · intro h
              rcases hr.2.mp h with ⟨k, hk⟩
              have hpos : 0 < vcGet ((k1, v1) :: t1) k := by omega
              have hne : k2 ≠ k := by
                intro hkk
                rw [← hkk, hk2a] at hpos
                omega
              exact ⟨k, by rw [vcGet_cons k2 v2 t2 k, if_neg hne]; exact hk⟩
            · intro ⟨k, hk⟩
              rw [vcGet_cons k2 v2 t2 k] at hk
              by_cases hek : k2 = k
              · rw [if_pos hek] at hk
                rw [← hek, hk2a] at hk
                omega
              · rw [if_neg hek] at hk
                exact hr.2.mpr ⟨k, hk⟩

theorem anyKeys_iff (keys : List String) (a b : List (String × Nat))
    (hcover : ∀ k, 0 < vcGet b k → k ∈ keys) :
    (keys.any (fun k => decide (vcGet a k < vcGet b k)) = true) ↔
      ∃ k, vcGet a k < vcGet b k := by
  constructor
  · intro h
    rcases List.any_eq_true.mp h with ⟨k, _, hk⟩
    exact ⟨k, of_decide_eq_true hk⟩
  · intro ⟨k, hk⟩
    exact List.any_eq_true.mpr ⟨k, hcover k (by omega), decide_eq_true hk⟩

/-- C1: for every pair of (well-formed, i.e. key-sorted) vector clocks,
`VectorClock::compare` returns exactly the verdict of the domination rule
with missing keys treated as zero, quantified over the keys present in
either clock: both-false gives `Equal`, only self-less gives `Less`, only
other-less gives `Greater`, both give `Concurrent`. -/
theorem claim_C1_compare_follows_domination_rule (a b : VectorClock)
    (ha : vcSorted a.clock = true) (hb : vcSorted b.clock = true) :
    VectorClock.compare a b = dominationVerdict a b := by
  have hspec := compareWalk_spec (a.clock.length + b.clock.length) a.clock b.clock le_rfl ha hb
  have hcov1 : ∀ k, 0 < vcGet b.clock k →
      k ∈ (a.clock.map Prod.fst ++ b.clock.map Prod.fst) :=
    fun k hk => List.mem_append.mpr (Or.inr (mem_keys_of_vcGet_pos hk))
  have hcov2 : ∀ k, 0 < vcGet a.clock k →
      k ∈ (a.clock.map Prod.fst ++ b.clock.map Prod.fst) :=
    fun k hk => List.mem_append.mpr (Or.inl (mem_keys_of_vcGet_pos hk))
  have e1 : (compareWalk (a.clock.length + b.clock.length) a.clock b.clock).1 =
      ((a.clock.map Prod.fst ++ b.clock.map Prod.fst).any
        (fun k => decide (vcGet a.clock k < vcGet b.clock k))) :=
    Bool.eq_iff_iff.mpr
      (hspec.1.trans (anyKeys_iff (a.clock.map Prod.fst ++ b.clock.map Prod.fst)
        a.clock b.clock hcov1).symm)
  have e2 : (compareWalk (a.clock.length + b.clock.length) a.clock b.clock).2 =
      ((a.clock.map Prod.fst ++ b.clock.map Prod.fst).any
        (fun k => decide (vcGet b.clock k < vcGet a.clock k))) :=
    Bool.eq_iff_iff.mpr
      (hspec.2.trans (anyKeys_iff (a.clock.map Prod.fst ++ b.clock.map Prod.fst)
        b.clock a.clock hcov2).symm)
  cases h1 : (a.clock.map Prod.fst ++ b.clock.map Prod.fst).any
      (fun k => decide (vcGet a.clock k < vcGet b.clock k)) <;>
    cases h2 : (a.clock.map Prod.fst ++ b.clock.map Prod.fst).any
        (fun k => decide (vcGet b.clock k < vcGet a.clock k))
  · have hp : compareWalk (a.clock.length + b.clock.length) a.clock b.clock = (false, false) :=
      Prod.ext (e1.trans h1) (e2.trans h2)
    simp only [VectorClock.compare, dominationVerdict, hp, h1, h2]
  · have hp : compareWalk (a.clock.length + b.clock.length) a.clock b.clock = (false, true) :=
      Prod.ext (e1.trans h1) (e2.trans h2)
    simp only [VectorClock.compare, dominationVerdict, hp, h1, h2]
  · have hp : compareWalk (a.clock.length + b.clock.length) a.clock b.clock = (true, false) :=
      Prod.ext (e1.trans h1) (e2.trans h2)
    simp only [VectorClock.compare, dominationVerdict, hp, h1, h2]
  · have hp : compareWalk (a.clock.length + b.clock.length) a.clock b.clock = (true, true) :=
      Prod.ext (e1.trans h1) (e2.trans h2)
    simp only [VectorClock.compare, dominationVerdict, hp, h1, h2]

/-- Witness for C1 at a concrete pair of sorted clocks. -/
theorem claim_C1_witness :
    vcSorted ([("a", 2), ("b", 1)] : List (String × Nat)) = true ∧
    vcSorted ([("a", 1), ("c", 1)] : List (String × Nat)) = true ∧
    VectorClock.compare ⟨[("a", 2), ("b", 1)]⟩ ⟨[("a", 1), ("c", 1)]⟩ =
      dominationVerdict ⟨[("a", 2), ("b", 1)]⟩ ⟨[("a", 1), ("c", 1)]⟩ :=
  ⟨by decide, by decide,
    claim_C1_compare_follows_domination_rule ⟨[("a", 2), ("b", 1)]⟩ ⟨[("a", 1), ("c", 1)]⟩
      (by decide) (by decide)⟩

/-! ## Vector-clock mutation lemmas -/

theorem vcGet_vcInsert : ∀ (c : List (String × Nat)) (k : String) (v : Nat) (k2 : String),
    vcGet (vcInsert c k v) k2 = if k = k2 then v else vcGet c k2
  | [], k, v, k2 => by
    unfold vcInsert
    rw [vcGet_cons]
  | (k3, v3) :: t, k, v, k2 => by
    unfold vcInsert
    by_cases h1 : k = k3
    · rw [if_pos h1, vcGet_cons, vcGet_cons]
      subst h1
      by_cases h2 : k = k2 <;> simp [h2]
    · rw [if_neg h1]
      by_cases hlt : strLt k k3 = true
      · rw [if_pos hlt, vcGet_cons]
      · rw [if_neg hlt, vcGet_cons, vcGet_cons]
        by_cases h3 : k3 = k2
        · rw [if_pos h3, if_pos h3, if_neg (h3 ▸ h1)]
        · rw [if_neg h3, if_neg h3]
          exact vcGet_vcInsert t k v k2

theorem vcGet_foldl_max_ge :
    ∀ (entries : List (String × Nat)) (acc : List (String × Nat)) (k : String),
    vcGet acc k ≤
      vcGet (entries.foldl (fun acc e => vcInsert acc e.1 (max (vcGet acc e.1) e.2)) acc) k
  | [], _, _ => le_refl _
  | e :: rest, acc, k => by
    have hstep : vcGet acc k ≤ vcGet (vcInsert acc e.1 (max (vcGet acc e.1) e.2)) k := by
      rw [vcGet_vcInsert]
      by_cases h : e.1 = k
      · rw [if_pos h, ← h]
        exact le_max_left _ _
      · rw [if_neg h]
    exact le_trans hstep (vcGet_foldl_max_ge rest _ k)

theorem vcGet_update_ge (c o : VectorClock) (k : String) :
    vcGet c.clock k ≤ vcGet (c.update o).clock k :=
  vcGet_foldl_max_ge o.clock c.clock k

theorem vcGet_increment_ge (c : VectorClock) (p k : String) :
    vcGet c.clock k ≤ vcGet (c.increment p).clock k := by
  unfold VectorClock.increment
  rw [vcGet_vcInsert]
  by_cases h : p = k
  · rw [if_pos h, ← h]
    omega
  · rw [if_neg h]

theorem vcGet_increment_self (c : VectorClock) (p : String) :
    vcGet (c.increment p).clock p = vcGet c.clock p + 1 := by
  unfold VectorClock.increment
  rw [vcGet_vcInsert]
  simp

/-! ## C2: claim tokens are single-shot -/

/-- C2: `ClaimToken::claim` succeeds exactly when the token is not expired
and `claimed_by_did` is unset; on success both `claimed_by_did` and
`claimed_timestamp` become set; on failure the token is unchanged; and a
second claim of a successfully claimed token always fails, leaving it
unchanged. -/
theorem claim_C2_token_claim_single_shot (t : ClaimToken) (d : String) (now : Nat) :
    ((t.claim d now).1.isOk = true ↔
      (t.is_expired now = false ∧ t.claimed_by_did = none)) ∧
    (∀ t2, t.claim d now = (Except.ok (), t2) →
      t2.claimed_by_did = some d ∧ t2.claimed_timestamp = some now) ∧
    ((t.claim d now).1.isOk = false → (t.claim d now).2 = t) ∧
    (∀ t2, t.claim d now = (Except.ok (), t2) → ∀ d2 now2,
      (t2.claim d2 now2).1.isOk = false ∧ (t2.claim d2 now2).2 = t2) := by
  unfold ClaimToken.claim
  by_cases hexp : t.is_expired now = true
  · simp [hexp, Except.isOk, Except.toBool]
  · have hexp2 : t.is_expired now = false := by
      cases h : t.is_expired now
      · rfl
      · exact absurd h hexp
    by_cases hcl : t.is_claimed = true
    · have : t.claimed_by_did ≠ none := by
        unfold ClaimToken.is_claimed at hcl
        cases h : t.claimed_by_did
        · rw [h] at hcl
          simp [Option.isSome] at hcl
        · simp
      simp [hexp2, hcl, Except.isOk, Except.toBool, this]
    · have hcl2 : t.is_claimed = false := by
        cases h : t.is_claimed
        · rfl
        · exact absurd h hcl
      have hnone : t.claimed_by_did = none := by
        unfold ClaimToken.is_claimed at hcl2
        cases h : t.claimed_by_did
        · rfl
        · rw [h] at hcl2
          simp [Option.isSome] at hcl2
      simp only [hexp2, hcl2, Bool.false_eq_true, if_false, Except.isOk, Except.toBool]
      refine ⟨by simp [hnone], ?_, by simp, ?_⟩
      · intro t2 h2
        have := (Prod.mk.injEq _ _ _ _).mp h2
        rw [← this.2]
        exact ⟨rfl, rfl⟩
      · intro t2 h2 d2 now2
        have := (Prod.mk.injEq _ _ _ _).mp h2
        have ht2 : t2.is_claimed = true := by
          rw [← this.2]
          rfl
        by_cases he2 : t2.is_expired now2 = true
        · simp [he2, Except.isOk, Except.toBool]
        · have : t2.is_expired now2 = false := by
            cases h : t2.is_expired now2
            · rfl
            · exact absurd h he2
          simp [this, ht2, Except.isOk, Except.toBool]

/-- Witness for C2 at a fresh unexpired token. -/
theorem claim_C2_witness :
    ((ClaimToken.claim (ClaimToken.mk "i" "OCM-T" "m" "o" (some 100) none none 0 0)
        "did:x" 50).1.isOk = true) ∧
    ((ClaimToken.claim (ClaimToken.mk "i" "OCM-T" "m" "o" (some 100) none none 0 0)
        "did:x" 50).2.claimed_by_did = some "did:x") ∧
    ((ClaimToken.claim ((ClaimToken.claim
        (ClaimToken.mk "i" "OCM-T" "m" "o" (some 100) none none 0 0) "did:x" 50).2)
        "did:y" 60).1.isOk = false) := by
  refine ⟨?_, ?_, ?_⟩
  · exact (claim_C2_token_claim_single_shot
      (ClaimToken.mk "i" "OCM-T" "m" "o" (some 100) none none 0 0) "did:x" 50).1.mpr
      ⟨by decide, rfl⟩
  · exact ((claim_C2_token_claim_single_shot
      (ClaimToken.mk "i" "OCM-T" "m" "o" (some 100) none none 0 0) "did:x" 50).2.1 _ rfl).1
  · exact (((claim_C2_token_claim_single_shot
      (ClaimToken.mk "i" "OCM-T" "m" "o" (some 100) none none 0 0) "did:x" 50).2.2.2 _ rfl)
      "did:y" 60).1

/-! ## Frame lemmas for the CRDT operation dispatch -/

theorem finalizeChange_frame (hashFn : JsonText → String) (s : CrdtMemory)
    (data : Json) (now : Nat) :
    (finalizeChange hashFn s data now).operations = s.operations ∧
    (finalizeChange hashFn s data now).operation_index = s.operation_index ∧
    (finalizeChange hashFn s data now).vector_clock = s.vector_clock ∧
    (finalizeChange hashFn s data now).merge_metadata = s.merge_metadata :=
  ⟨rfl, rfl, rfl, rfl⟩

theorem dispatchOp_ok_frame (hashFn : JsonText → String) (s : CrdtMemory)
    (op : MemoryOperation) (now : Nat) (s2 : CrdtMemory)
    (h : dispatchOp hashFn s op now = Except.ok s2) :
    s2.operations = s.operations ∧ s2.operation_index = s.operation_index ∧
    s2.vector_clock = s.vector_clock ∧ s2.merge_metadata = s.merge_metadata := by
  unfold dispatchOp at h
  split at h
  · unfold applySetOperation at h
    split at h
    · exact absurd h (by simp)
    · split at h
      · have h2 := Except.ok.inj h
        rw [← h2]
        exact finalizeChange_frame hashFn s _ now
      · exact absurd h (by simp)
  · unfold applyDeleteOperation at h
    split at h
    · exact absurd h (by simp)
    · split at h
      · have h2 := Except.ok.inj h
        rw [← h2]
        exact ⟨rfl, rfl, rfl, rfl⟩
      · have h2 := Except.ok.inj h
        rw [← h2]
        exact finalizeChange_frame hashFn s _ now
  · unfold applyAppendOperation at h
    split at h
    · exact absurd h (by simp)
    · split at h
      · have h2 := Except.ok.inj h
        rw [← h2]
        exact finalizeChange_frame hashFn s _ now
      · exact absurd h (by simp)
  · unfold applyMergeOperation at h
    split at h
    · exact absurd h (by simp)
    · split at h
      · have h2 := Except.ok.inj h
        rw [← h2]
        exact finalizeChange_frame hashFn s _ now
      · exact absurd h (by simp)

theorem applyOperation_error_frame (hashFn : JsonText → String) (s : CrdtMemory)
    (op : MemoryOperation) (peer_id : String) (now : Nat) (e : CrdtError) (s2 : CrdtMemory)
    (h : applyOperation hashFn s op peer_id now = (Except.error e, s2)) :
    s2.base_memory = s.base_memory ∧ s2.operations = s.operations ∧
    s2.operation_index = s.operation_index ∧ s2.merge_metadata = s.merge_metadata ∧
    s2.vector_clock = (s.vector_clock.update op.vector_clock).increment peer_id := by
  unfold applyOperation at h
  cases hc : s.operation_index.contains op.operation_id <;> rw [hc] at h
  case true => simp at h
  case false =>
    simp only [Bool.false_eq_true, if_false] at h
    cases hd : dispatchOp hashFn
        { s with vector_clock := (s.vector_clock.update op.vector_clock).increment peer_id }
        op now <;> rw [hd] at h
    case ok s3 => simp at h
    case error e2 =>
      have h2 := (Prod.mk.injEq _ _ _ _).mp h
      rw [← h2.2]
      exact ⟨rfl, rfl, rfl, rfl, rfl⟩

/-- C10: when `apply_operation` returns an error, the operation is not
appended to the log or the index and `base_memory` is unchanged, but the
vector clock has already been updated with the operation clock and
incremented for the local peer: a failed apply is not atomic with respect to
the clock. -/
theorem claim_C10_failed_apply_bumps_clock (hashFn : JsonText → String)
    (s : CrdtMemory) (op : MemoryOperation) (peer_id : String) (now : Nat)
    (e : CrdtError) (s2 : CrdtMemory)
    (h : applyOperation hashFn s op peer_id now = (Except.error e, s2)) :
    s2.base_memory = s.base_memory ∧ s2.operations = s.operations ∧
    s2.operation_index = s.operation_index ∧
    s2.vector_clock = (s.vector_clock.update op.vector_clock).increment peer_id ∧
    s2.vector_clock ≠ s.vector_clock := by
  have hf := applyOperation_error_frame hashFn s op peer_id now e s2 h
  refine ⟨hf.1, hf.2.1, hf.2.2.1, hf.2.2.2.2, ?_⟩
  rw [hf.2.2.2.2]
  intro hvc
  have h1 : vcGet ((s.vector_clock.update op.vector_clock).increment peer_id).clock peer_id =
      vcGet s.vector_clock.clock peer_id := by rw [hvc]
  have h2 := vcGet_increment_self (s.vector_clock.update op.vector_clock) peer_id
  have h3 := vcGet_update_ge s.vector_clock op.vector_clock peer_id
  omega

/-- Witness for C10: a `Set` operation on unparseable memory data fails with
`InvalidMemoryData`, yet the clock was updated and incremented. -/
theorem claim_C10_witness :
    ((applyOperation (fun _ => "") (CrdtMemory.mk
        (SignedMemory.mk "i" "d" "t" JsonText.invalid "h" "sg" 0 0) ⟨[]⟩ [] []
        (MergeMetadata.mk ["p"] ConflictStrategy.LastWriterWins 0))
        (MemoryOperation.mk "op1" OperationType.Set "f" (Json.str "v") ⟨[("q", 2)]⟩ (some 1))
        "p" 5).2.operations = []) ∧
    ((applyOperation (fun _ => "") (CrdtMemory.mk
        (SignedMemory.mk "i" "d" "t" JsonText.invalid "h" "sg" 0 0) ⟨[]⟩ [] []
        (MergeMetadata.mk ["p"] ConflictStrategy.LastWriterWins 0))
        (MemoryOperation.mk "op1" OperationType.Set "f" (Json.str "v") ⟨[("q", 2)]⟩ (some 1))
        "p" 5).2.vector_clock =
      ((⟨[]⟩ : VectorClock).update ⟨[("q", 2)]⟩).increment "p") ∧
    ((applyOperation (fun _ => "") (CrdtMemory.mk
        (SignedMemory.mk "i" "d" "t" JsonText.invalid "h" "sg" 0 0) ⟨[]⟩ [] []
        (MergeMetadata.mk ["p"] ConflictStrategy.LastWriterWins 0))
        (MemoryOperation.mk "op1" OperationType.Set "f" (Json.str "v") ⟨[("q", 2)]⟩ (some 1))
        "p" 5).2.vector_clock ≠ (⟨[]⟩ : VectorClock)) := by
  have hc := claim_C10_failed_apply_bumps_clock (fun _ => "")
    (CrdtMemory.mk (SignedMemory.mk "i" "d" "t" JsonText.invalid "h" "sg" 0 0) ⟨[]⟩ [] []
      (MergeMetadata.mk ["p"] ConflictStrategy.LastWriterWins 0))
    (MemoryOperation.mk "op1" OperationType.Set "f" (Json.str "v") ⟨[("q", 2)]⟩ (some 1))
    "p" 5 CrdtError.InvalidMemoryData _ rfl
  exact ⟨hc.2.1, hc.2.2.2.1, hc.2.2.2.2⟩

/-! ## C7: the Append operation -/

/-- Counterexample to C7 as stated: on a String target with the non-string
value `1`, `apply_append_operation` succeeds and leaves the string unchanged
— the value is neither concatenated (the data is unchanged although a
concatenation of the value as a string would change it) nor does the
operation fail. -/
theorem claim_C7_counterexample :
    applyAppendOperation (fun _ => "h") (CrdtMemory.mk
        (SignedMemory.mk "i" "d" "t" (JsonText.valid (Json.obj [("s", Json.str "ab")]))
          "h" "sg" 0 0)
        ⟨[]⟩ [] [] (MergeMetadata.mk [] ConflictStrategy.LastWriterWins 0))
      (MemoryOperation.mk "op1" OperationType.Append "s" (Json.num 1) ⟨[]⟩ (some 1)) 7 =
      Except.ok (CrdtMemory.mk
        (SignedMemory.mk "i" "d" "t" (JsonText.valid (Json.obj [("s", Json.str "ab")]))
          "h" "sg" 0 7)
        ⟨[]⟩ [] [] (MergeMetadata.mk [] ConflictStrategy.LastWriterWins 0)) ∧
    "ab" ++ "1" ≠ "ab" :=
  ⟨rfl, by decide⟩

/-- C7 (amended): Append navigates the dot path creating null entries only
at object positions, and skips path parts at non-object positions; at the
target an Array has the value pushed; a String is extended by the value only
when the value is itself a JSON string, a non-string value leaving the
string unchanged with success; every other target fails. -/
theorem claim_C7_amended_append_semantics :
    (∀ (xs : List Json) (v : Json),
      appendLeaf (Json.arr xs) v = Except.ok (Json.arr (xs ++ [v]))) ∧
    (∀ (s t : String), appendLeaf (Json.str s) (Json.str t) = Except.ok (Json.str (s ++ t))) ∧
    (∀ (s : String) (v : Json), (∀ t, v ≠ Json.str t) →
      appendLeaf (Json.str s) v = Except.ok (Json.str s)) ∧
    (∀ v, appendLeaf Json.null v =
      Except.error (CrdtError.OperationFailed "Target is not appendable")) ∧
    (∀ b v, appendLeaf (Json.bool b) v =
      Except.error (CrdtError.OperationFailed "Target is not appendable")) ∧
    (∀ n v, appendLeaf (Json.num n) v =
      Except.error (CrdtError.OperationFailed "Target is not appendable")) ∧
    (∀ fs v, appendLeaf (Json.obj fs) v =
      Except.error (CrdtError.OperationFailed "Target is not appendable")) ∧
    (∀ fs p rest v, objGet fs p = none →
      appendAt (Json.obj fs) (p :: rest) v =
        (match appendAt Json.null rest v with
         | Except.ok child => Except.ok (Json.obj (objInsert fs p child))
         | Except.error e => Except.error e)) ∧
    (∀ (j : Json) (p : String) (rest : List String) (v : Json), (∀ fs, j ≠ Json.obj fs) →
      appendAt j (p :: rest) v = appendAt j rest v) := by
  refine ⟨fun xs v => rfl, fun s t => rfl, ?_, fun v => rfl, fun b v => rfl,
    fun n v => rfl, fun fs v => rfl, ?_, ?_⟩
  · intro s v hv
    cases v with
    | str t => exact absurd rfl (hv t)
    | null => rfl
    | bool b => rfl
    | num n => rfl
    | arr xs => rfl
    | obj fs => rfl
  · intro fs p rest v h
    have hred : appendAt (Json.obj fs) (p :: rest) v =
        (match appendAt ((objGet fs p).getD Json.null) rest v with
         | Except.ok child => Except.ok (Json.obj (objInsert fs p child))
         | Except.error e => Except.error e) := rfl
    rw [hred, h]
    rfl
  · intro j p rest v h
    cases j with
    | obj fs => exact absurd rfl (h fs)
    | null => rfl
    | bool b => rfl
    | num n => rfl
    | str s => rfl
    | arr xs => rfl

/-- Witness for C7 at concrete inputs. -/
theorem claim_C7_witness :
    appendLeaf (Json.str "ab") (Json.num 1) = Except.ok (Json.str "ab") ∧
    appendAt (Json.obj []) ["k"] (Json.num 1) =
      (match appendAt Json.null [] (Json.num 1) with
       | Except.ok child => Except.ok (Json.obj (objInsert [] "k" child))
       | Except.error e => Except.error e) ∧
    appendAt (Json.str "x") ["k"] (Json.num 1) = appendAt (Json.str "x") [] (Json.num 1) := by
  obtain ⟨_, _, h3, _, _, _, _, h8, h9⟩ := claim_C7_amended_append_semantics
  exact ⟨h3 "ab" (Json.num 1) (fun t ht => Json.noConfusion ht),
    h8 [] "k" [] (Json.num 1) rfl,
    h9 (Json.str "x") "k" [] (Json.num 1) (fun fs hf => Json.noConfusion hf)⟩

/-! ## C4: verify_memory checks the content hash before the signature -/

/-- C4: `verify_memory` answers `Ok(false)` whenever the recomputed SHA-256
hex hash of `memory_data` differs from `content_hash`, for every possible
base64 decoder and Ed25519 verifier — so without the signature being
consulted; when the hash matches and the key and signature decode, it
returns exactly the Ed25519 verification result of the stored signature over
the signing payload under the identity public key. -/
theorem claim_C4_verify_memory_hash_gate {K S : Type}
    (decodeKey : String → Except String K) (decodeSig : String → Except String S)
    (edVerify : K → String → S → Bool) (public_key : String) (m : Plc.SignedMemory) :
    (Plc.compute_hash m.memory_data ≠ m.content_hash →
      Plc.verify_memory decodeKey decodeSig edVerify public_key m = Except.ok false) ∧
    (Plc.compute_hash m.memory_data = m.content_hash → ∀ pk sg,
      decodeKey public_key = Except.ok pk → decodeSig m.signature = Except.ok sg →
      Plc.verify_memory decodeKey decodeSig edVerify public_key m =
        Except.ok (edVerify pk m.get_signing_payload sg)) := by
  constructor
  · intro hne
    have hvh : m.verify_hash = false := by
      unfold Plc.SignedMemory.verify_hash
      exact beq_eq_false_iff_ne.mpr hne
    unfold Plc.verify_memory
    rw [hvh]
    simp
  · intro heq pk sg hpk hsg
    have hvh : m.verify_hash = true := by
      unfold Plc.SignedMemory.verify_hash
      exact beq_iff_eq.mpr heq
    unfold Plc.verify_memory
    rw [hvh]
    simp only [Bool.true_eq_false, if_false]
    rw [hpk, hsg]

/-- Witness for C4: a concrete memory whose hash mismatches answers false
for an always-true verifier, and one whose hash matches returns the verifier
verdict. -/
theorem claim_C4_witness :
    Plc.verify_memory (fun _ => Except.ok 0) (fun _ => Except.ok 0)
      (fun _ _ _ => true) "pk"
      (Plc.SignedMemory.mk "i" "d" "t" "hello" "deadbeef" "sg" "ts" "u") =
      Except.ok false ∧
    Plc.verify_memory (fun _ => Except.ok 0) (fun _ => Except.ok 0)
      (fun _ _ _ => true) "pk"
      (Plc.SignedMemory.mk "i" "d" "t" "hi" (Plc.compute_hash "hi") "sg" "ts" "u") =
      Except.ok true := by
  constructor
  · exact (claim_C4_verify_memory_hash_gate (fun _ => Except.ok (0 : Nat))
      (fun _ => Except.ok (0 : Nat)) (fun _ _ _ => true) "pk"
      (Plc.SignedMemory.mk "i" "d" "t" "hello" "deadbeef" "sg" "ts" "u")).1 (by decide)
  · exact (claim_C4_verify_memory_hash_gate (fun _ => Except.ok (0 : Nat))
      (fun _ => Except.ok (0 : Nat)) (fun _ _ _ => true) "pk"
      (Plc.SignedMemory.mk "i" "d" "t" "hi" (Plc.compute_hash "hi") "sg" "ts" "u")).2
      rfl 0 0 rfl rfl

/-- Sanity check of the SHA-256 implementation against the FIPS test
vector for the string abc. -/
theorem sha256hex_abc :
    sha256hex "abc" = "ba7816bf8f01cfea414140de5dae2223b00361a396177a9cb410ff61f20015ad" := by
  decide

/-! ## C8: DID derivation -/

theorem compressBlock_length : ∀ (hs blk : List Nat), hs.length = 8 →
    (compressBlock hs blk).length = 8
  | [a, b, c, d, e, f, g, hh], blk, _ => rfl
  | [], _, h => by simp only [List.length_nil] at h; omega
  | [_], _, h => by simp only [List.length_cons, List.length_nil] at h; omega
  | [_, _], _, h => by simp only [List.length_cons, List.length_nil] at h; omega
  | [_, _, _], _, h => by simp only [List.length_cons, List.length_nil] at h; omega
  | [_, _, _, _], _, h => by simp only [List.length_cons, List.length_nil] at h; omega
  | [_, _, _, _, _], _, h => by simp only [List.length_cons, List.length_nil] at h; omega
  | [_, _, _, _, _, _], _, h => by simp only [List.length_cons, List.length_nil] at h; omega
  | [_, _, _, _, _, _, _], _, h => by
    simp only [List.length_cons, List.length_nil] at h
    omega
  | _ :: _ :: _ :: _ :: _ :: _ :: _ :: _ :: _ :: _, _, h => by
    simp only [List.length_cons] at h
    omega

theorem foldl_compressBlock_length :
    ∀ (blocks : List (List Nat)) (hs : List Nat), hs.length = 8 →
    (blocks.foldl compressBlock hs).length = 8
  | [], _, h => h
  | blk :: rest, hs, h =>
    foldl_compressBlock_length rest (compressBlock hs blk) (compressBlock_length hs blk h)

theorem flatten_word32Bytes_length : ∀ (l : List Nat),
    ((l.map word32Bytes).flatten).length = 4 * l.length
  | [] => rfl
  | w :: rest => by
    simp only [List.map_cons, List.flatten_cons, List.length_append,
      flatten_word32Bytes_length rest, List.length_cons]
    simp [word32Bytes]
    omega

/-- The SHA-256 digest always has 32 bytes. -/
theorem sha256_length (msg : List Nat) : (sha256 msg).length = 32 := by
  unfold sha256
  rw [flatten_word32Bytes_length, foldl_compressBlock_length _ sha256H0 rfl]

theorem flatten_byteBits_length : ∀ (bs : List Nat),
    (bytesToBits bs).length = 8 * bs.length
  | [] => rfl
  | b :: rest => by
    have hr := flatten_byteBits_length rest
    unfold bytesToBits at hr ⊢
    simp only [List.map_cons, List.flatten_cons, List.length_append, hr, List.length_cons]
    simp [byteBits]
    omega

theorem chunks5_length : ∀ (l : List Bool), (chunks5 l).length = (l.length + 4) / 5
  | [] => rfl
  | [_] => by simp [chunks5]
  | [_, _] => by simp [chunks5]
  | [_, _, _] => by simp [chunks5]
  | [_, _, _, _] => by simp [chunks5]
  | a :: b :: c :: d :: e :: rest => by
    simp only [chunks5, List.length_cons, chunks5_length rest]
    omega

theorem encodeBase32NoPadding_length (data : List Nat) :
    (encodeBase32NoPadding data).length = (8 * data.length + 4) / 5 := by
  unfold encodeBase32NoPadding
  show ((chunks5 (bytesToBits data)).map _).length = _
  rw [List.length_map, chunks5_length, flatten_byteBits_length]

/-- Every `generate_plc_id` output has exactly 39 characters: 24 hash bytes
are 192 bits, which base32 encodes as 39 quantums. -/
theorem generate_plc_id_length (public_key : List Nat) :
    (generate_plc_id public_key).length = 39 := by
  unfold generate_plc_id
  rw [encodeBase32NoPadding_length, List.length_take,
    sha256_length (strBytes "did:plc:" ++ public_key)]
  decide

/-- Counterexample to C8 as stated: at the all-zero 32-byte public key the
encoded DID suffix has 39 characters, not 28. -/
theorem claim_C8_counterexample :
    (generate_plc_id (List.replicate 32 0)).length = 39 ∧ (39 : Nat) ≠ 28 :=
  ⟨generate_plc_id_length (List.replicate 32 0), by decide⟩

/-- C8 (amended): the DID is `did:plc:` followed by the lowercase unpadded
base32 encoding of the first 24 bytes of SHA256 of `did:plc:` plus the
public key, and the encoded suffix consists of exactly 39 characters, all
drawn from the lowercase base32 alphabet. -/
theorem claim_C8_amended_did_format (public_key : List Nat) :
    didFor public_key = "did:plc:" ++
      encodeBase32NoPadding ((sha256 (strBytes "did:plc:" ++ public_key)).take 24) ∧
    (generate_plc_id public_key).length = 39 ∧
    (∀ c ∈ (generate_plc_id public_key).data, c ∈ base32Alphabet) := by
  refine ⟨rfl, generate_plc_id_length public_key, ?_⟩
  intro c hc
  unfold generate_plc_id encodeBase32NoPadding at hc
  simp only [List.mem_map] at hc
  rcases hc with ⟨g, _, hg⟩
  rw [← hg]
  unfold List.getD
  cases hget : base32Alphabet.get? (bits5Val g) with
  | none => simp [hget]; decide
  | some ch =>
    simp only [hget, Option.getD_some]
    exact List.get?_mem hget

/-- Witness for C8 amended at the all-zero public key. -/
theorem claim_C8_witness :
    didFor (List.replicate 32 0) = "did:plc:" ++
      encodeBase32NoPadding ((sha256 (strBytes "did:plc:" ++ List.replicate 32 0)).take 24) ∧
    (generate_plc_id (List.replicate 32 0)).length = 39 :=
  ⟨(claim_C8_amended_did_format (List.replicate 32 0)).1,
   (claim_C8_amended_did_format (List.replicate 32 0)).2.1⟩

/-! ## C9: the per-IP rate limiter -/

theorem rlInsert_mem : ∀ (st : RateLimiterState) (ip : String) (mc : MessageCount)
    (e : String × MessageCount), e ∈ rlInsert st ip mc → e = (ip, mc) ∨ e ∈ st
  | [], ip, mc, e, he => by
    unfold rlInsert at he
    simp only [List.mem_singleton] at he
    exact Or.inl he
  | p :: t, ip, mc, e, he => by
    unfold rlInsert at he
    by_cases h : p.1 = ip
    · rw [if_pos h] at he
      rcases List.mem_cons.mp he with h2 | h2
      · exact Or.inl h2
      · exact Or.inr (List.mem_cons_of_mem p h2)
    · rw [if_neg h] at he
      rcases List.mem_cons.mp he with h2 | h2
      · exact Or.inr (h2 ▸ List.mem_cons_self p t)
      · rcases rlInsert_mem t ip mc e h2 with h3 | h3
        · exact Or.inl h3
        · exact Or.inr (List.mem_cons_of_mem p h3)

theorem u64Sub_self (a : Nat) : u64Sub a a = 0 := by
  unfold u64Sub
  have h1 : a % 2 ^ 64 ≤ 2 ^ 64 := le_of_lt (Nat.mod_lt a (by decide))
  rw [Nat.add_sub_cancel' h1]
  exact Nat.mod_self _

/-- Counterexample to C9 as stated: the limiter window is anchored at the
first message and resets, so the two-second interval from 59 to 60 carries
119 accepted messages from one IP — far more than the sliding-window bound
of 60 per 60 seconds the claim asserts. -/
theorem claim_C9_counterexample :
    acceptedWithin 59 60
      (runLimiter "ip" (0 :: (List.replicate 59 59 ++ List.replicate 60 60)) []) = 119 ∧
    (60 : Nat) < 119 := by
  constructor
  · set_option maxRecDepth 100000 in decide
  · decide

/-- C9 (amended): the limiter enforces a fixed per-IP window anchored at
`window_start` and reset once it ages 60 seconds: counts never exceed 60;
a message finding a full in-window entry is rejected (the message is
dropped, the entry kept); a message finding an in-window entry below the
cap is accepted; and a message finding no live entry (absent, or expired
and cleaned) is accepted. -/
theorem claim_C9_amended_fixed_window (st : RateLimiterState) (ip : String) (now : Nat) :
    ((∀ e ∈ st, e.2.count ≤ MAX_MESSAGES_PER_MINUTE) →
      ∀ e ∈ (checkRateLimit st ip now).2, e.2.count ≤ MAX_MESSAGES_PER_MINUTE) ∧
    (∀ c ws, rlLookup (cleanupExpiredWindows st now) ip = some ⟨c, ws⟩ →
      u64Sub now ws < RATE_LIMIT_WINDOW_SECS → MAX_MESSAGES_PER_MINUTE ≤ c →
      (checkRateLimit st ip now).1 = false) ∧
    (∀ c ws, rlLookup (cleanupExpiredWindows st now) ip = some ⟨c, ws⟩ →
      u64Sub now ws < RATE_LIMIT_WINDOW_SECS → c < MAX_MESSAGES_PER_MINUTE →
      (checkRateLimit st ip now).1 = true) ∧
    (rlLookup (cleanupExpiredWindows st now) ip = none →
      (checkRateLimit st ip now).1 = true) := by
  refine ⟨?_, ?_, ?_, ?_⟩
  · intro hb e he
    simp only [checkRateLimit] at he
    set st1 := cleanupExpiredWindows st now with hst1
    set mc0 := (rlLookup st1 ip).getD ⟨0, now⟩ with hmc0
    set mc1 := if u64Sub now mc0.window_start ≥ RATE_LIMIT_WINDOW_SECS then
        (⟨0, now⟩ : MessageCount) else mc0 with hmc1
    have hmc0le : mc0.count ≤ MAX_MESSAGES_PER_MINUTE := by
      rw [hmc0]
      cases hl : rlLookup st1 ip with
      | none => simp [MAX_MESSAGES_PER_MINUTE]
      | some mc =>
        simp only [Option.getD_some]
        unfold rlLookup at hl
        cases hf : st1.find? (fun e => e.1 == ip) with
        | none => rw [hf] at hl; simp at hl
        | some pr =>
          rw [hf] at hl
          simp at hl
          have hpr : pr ∈ st1 := List.mem_of_find?_eq_some hf
          have hprst : pr ∈ st := List.mem_of_mem_filter hpr
          exact hl ▸ hb pr hprst
    have hmc1le : mc1.count ≤ MAX_MESSAGES_PER_MINUTE := by
      rw [hmc1]
      split
      · simp [MAX_MESSAGES_PER_MINUTE]
      · exact hmc0le
    by_cases hcap : mc1.count ≥ MAX_MESSAGES_PER_MINUTE
    · rw [if_pos hcap] at he
      rcases rlInsert_mem st1 ip mc1 e he with h2 | h2
      · rw [h2]; exact hmc1le
      · exact hb e (List.mem_of_mem_filter h2)
    · rw [if_neg hcap] at he
      rcases rlInsert_mem st1 ip _ e he with h2 | h2
      · rw [h2]
        simp only [MAX_MESSAGES_PER_MINUTE] at hcap ⊢
        omega
      · exact hb e (List.mem_of_mem_filter h2)
  · intro c ws h hwin hcap
    simp only [checkRateLimit, h, Option.getD_some]
    have hwin2 : ¬ u64Sub now (MessageCount.mk c ws).window_start ≥ RATE_LIMIT_WINDOW_SECS :=
      by simp only [RATE_LIMIT_WINDOW_SECS] at hwin ⊢; omega
    rw [if_neg hwin2, if_pos hcap]
  · intro c ws h hwin hcap
    simp only [checkRateLimit, h, Option.getD_some]
    have hwin2 : ¬ u64Sub now (MessageCount.mk c ws).window_start ≥ RATE_LIMIT_WINDOW_SECS :=
      by simp only [RATE_LIMIT_WINDOW_SECS] at hwin ⊢; omega
    have hcap2 : ¬ (MessageCount.mk c ws).count ≥ MAX_MESSAGES_PER_MINUTE := by
      simp only [MAX_MESSAGES_PER_MINUTE] at hcap ⊢
      omega
    rw [if_neg hwin2, if_neg hcap2]
  · intro h
    simp only [checkRateLimit, h, Option.getD_none]
    have hwin2 : ¬ u64Sub now (MessageCount.mk 0 now).window_start ≥ RATE_LIMIT_WINDOW_SECS := by
      show ¬ u64Sub now now ≥ RATE_LIMIT_WINDOW_SECS
      rw [u64Sub_self]
      simp [RATE_LIMIT_WINDOW_SECS]
    rw [if_neg hwin2]
    have hcap2 : ¬ (MessageCount.mk 0 now).count ≥ MAX_MESSAGES_PER_MINUTE := by
      simp [MAX_MESSAGES_PER_MINUTE]
    rw [if_neg hcap2]

/-- Witness for C9 amended: a full in-window entry rejects the 61st message,
and the first message after the window has aged out is accepted. -/
theorem claim_C9_witness :
    (checkRateLimit [("ip", MessageCount.mk 60 0)] "ip" 30).1 = false ∧
    (checkRateLimit [("ip", MessageCount.mk 60 0)] "ip" 60).1 = true := by
  constructor
  · exact (claim_C9_amended_fixed_window [("ip", MessageCount.mk 60 0)] "ip" 30).2.1 60 0
      (by decide) (by decide) (by decide)
  · exact (claim_C9_amended_fixed_window [("ip", MessageCount.mk 60 0)] "ip" 60).2.2.2
      (by decide)

/-! ## Sorted-clock preservation -/

theorem vcSorted_intro : ∀ (p : String × Nat) (l : List (String × Nat)),
    vcSorted l = true → (∀ q ∈ l.map Prod.fst, strLt p.1 q = true) →
    vcSorted (p :: l) = true
  | _, [], _, _ => rfl
  | p, r :: t, hs, hall => by
    show (strLt p.1 r.1 && vcSorted (r :: t)) = true
    rw [hs, hall r.1 (by simp)]
    rfl

theorem vcInsert_keys : ∀ (t : List (String × Nat)) (k : String) (v : Nat) (q : String),
    q ∈ (vcInsert t k v).map Prod.fst → q = k ∨ q ∈ t.map Prod.fst
  | [], k, v, q, hq => by
    unfold vcInsert at hq
    simp at hq
    exact Or.inl hq
  | (k2, v2) :: t, k, v, q, hq => by
    unfold vcInsert at hq
    by_cases h1 : k = k2
    · rw [if_pos h1] at hq
      simp only [List.map_cons, List.mem_cons] at hq
      rcases hq with hq | hq
      · exact Or.inl hq
      · exact Or.inr (by simp [hq])
    · rw [if_neg h1] at hq
      by_cases h2 : strLt k k2 = true
      · rw [if_pos h2] at hq
        simp only [List.map_cons, List.mem_cons] at hq
        rcases hq with hq | hq
        · exact Or.inl hq
        · exact Or.inr (by simpa using hq)
      · rw [if_neg h2] at hq
        simp only [List.map_cons, List.mem_cons] at hq
        rcases hq with hq | hq
        · exact Or.inr (by simp [hq])
        · rcases vcInsert_keys t k v q hq with h3 | h3
          · exact Or.inl h3
          · exact Or.inr (by simp [h3])

theorem vcInsert_sorted : ∀ (c : List (String × Nat)) (k : String) (v : Nat),
    vcSorted c = true → vcSorted (vcInsert c k v) = true
  | [], _, _, _ => rfl
  | (k2, v2) :: t, k, v, hs => by
    unfold vcInsert
    by_cases h1 : k = k2
    · rw [if_pos h1]
      apply vcSorted_intro
      · exact vcSorted_tail hs
      · intro q hq
        rw [h1]
        exact vcSorted_head_lt hs q hq
    · rw [if_neg h1]
      by_cases h2 : strLt k k2 = true
      · rw [if_pos h2]
        apply vcSorted_intro
        · exact hs
        · intro q hq
          simp only [List.map_cons, List.mem_cons] at hq
          rcases hq with hq | hq
          · exact hq ▸ h2
          · exact strLt_trans h2 (vcSorted_head_lt hs q (by simpa using hq))
      · rw [if_neg h2]
        have hf : strLt k k2 = false := by
          cases hx : strLt k k2
          · rfl
          · exact absurd hx h2
        have h3 : strLt k2 k = true := strLt_of_ne_of_not_lt h1 hf
        apply vcSorted_intro
        · exact vcInsert_sorted t k v (vcSorted_tail hs)
        · intro q hq
          rcases vcInsert_keys t k v q hq with rfl | hq2
          · exact h3
          · exact vcSorted_head_lt hs q hq2

theorem vcFoldl_sorted : ∀ (entries acc : List (String × Nat)),
    vcSorted acc = true →
    vcSorted (entries.foldl (fun acc e => vcInsert acc e.1 (max (vcGet acc e.1) e.2)) acc) = true
  | [], _, h => h
  | e :: rest, acc, h =>
    vcFoldl_sorted rest _ (vcInsert_sorted acc e.1 (max (vcGet acc e.1) e.2) h)

theorem vcUpdate_sorted (c o : VectorClock) (h : vcSorted c.clock = true) :
    vcSorted (c.update o).clock = true :=
  vcFoldl_sorted o.clock c.clock h

theorem vcIncrement_sorted (c : VectorClock) (p : String) (h : vcSorted c.clock = true) :
    vcSorted (c.increment p).clock = true :=
  vcInsert_sorted c.clock p (vcGet c.clock p + 1) h

/-! ## apply_operation characterization -/

theorem hasOperation_iff (s : CrdtMemory) (id : String) :
    hasOperation s id = true ↔ ∃ op ∈ s.operations, op.operation_id = id := by
  unfold hasOperation
  rw [List.any_eq_true]
  constructor
  · intro ⟨op, hmem, hop⟩
    exact ⟨op, hmem, beq_iff_eq.mp hop⟩
  · intro ⟨op, hmem, hop⟩
    exact ⟨op, hmem, beq_iff_eq.mpr hop⟩

theorem applyOperation_contains (hashFn : JsonText → String) (s : CrdtMemory)
    (op : MemoryOperation) (peer_id : String) (now : Nat)
    (h : s.operation_index.contains op.operation_id = true) :
    applyOperation hashFn s op peer_id now = (Except.ok (), s) := by
  unfold applyOperation
  rw [if_pos h]

theorem applyOperation_ok_shape (hashFn : JsonText → String) (s : CrdtMemory)
    (op : MemoryOperation) (peer_id : String) (now : Nat) (s2 : CrdtMemory)
    (hc : s.operation_index.contains op.operation_id = false)
    (h : applyOperation hashFn s op peer_id now = (Except.ok (), s2)) :
    s2.operations = s.operations ++ [op] ∧
    s2.operation_index = op.operation_id :: s.operation_index ∧
    s2.vector_clock = (s.vector_clock.update op.vector_clock).increment peer_id ∧
    s2.merge_metadata.merged_from = s.merge_metadata.merged_from ∧
    s2.merge_metadata.conflict_resolution_strategy =
      s.merge_metadata.conflict_resolution_strategy := by
  unfold applyOperation at h
  rw [hc] at h
  simp only [Bool.false_eq_true, if_false] at h
  cases hd : dispatchOp hashFn
      { s with vector_clock := (s.vector_clock.update op.vector_clock).increment peer_id }
      op now <;> rw [hd] at h
  case error e => simp at h
  case ok s3 =>
    have hf := dispatchOp_ok_frame hashFn _ op now s3 hd
    have h2 := (Prod.mk.injEq _ _ _ _).mp h
    rw [← h2.2]
    refine ⟨by rw [hf.1], by rw [hf.2.1], by rw [hf.2.2.1], ?_, ?_⟩
    · show s3.merge_metadata.merged_from = s.merge_metadata.merged_from
      rw [hf.2.2.2]
    · show s3.merge_metadata.conflict_resolution_strategy =
        s.merge_metadata.conflict_resolution_strategy
      rw [hf.2.2.2]

/-- Bundled preservation facts of `apply_operation`, for any outcome. -/
theorem applyOperation_props (hashFn : JsonText → String) (s : CrdtMemory)
    (op : MemoryOperation) (peer_id : String) (now : Nat)
    (hInv : IndexCoherent s) :
    IndexCoherent (applyOperation hashFn s op peer_id now).2 ∧
    (∀ k, vcGet s.vector_clock.clock k ≤
      vcGet (applyOperation hashFn s op peer_id now).2.vector_clock.clock k) ∧
    (vcSorted s.vector_clock.clock = true →
      vcSorted (applyOperation hashFn s op peer_id now).2.vector_clock.clock = true) ∧
    (applyOperation hashFn s op peer_id now).2.merge_metadata.conflict_resolution_strategy =
      s.merge_metadata.conflict_resolution_strategy ∧
    (applyOperation hashFn s op peer_id now).2.merge_metadata.merged_from =
      s.merge_metadata.merged_from ∧
    (∃ ext, (applyOperation hashFn s op peer_id now).2.operations = s.operations ++ ext) ∧
    (∀ id, s.operation_index.contains id = true →
      (applyOperation hashFn s op peer_id now).2.operation_index.contains id = true) := by
  have hbump1 : ∀ k, vcGet s.vector_clock.clock k ≤
      vcGet ((s.vector_clock.update op.vector_clock).increment peer_id).clock k :=
    fun k => le_trans (vcGet_update_ge s.vector_clock op.vector_clock k)
      (vcGet_increment_ge (s.vector_clock.update op.vector_clock) peer_id k)
  have hbump2 : vcSorted s.vector_clock.clock = true →
      vcSorted ((s.vector_clock.update op.vector_clock).increment peer_id).clock = true :=
    fun h => vcIncrement_sorted _ peer_id (vcUpdate_sorted s.vector_clock op.vector_clock h)
  cases hc : s.operation_index.contains op.operation_id
  case true =>
    rw [applyOperation_contains hashFn s op peer_id now hc]
    exact ⟨hInv, fun k => le_refl _, fun h => h, rfl, rfl, ⟨[], by simp⟩, fun id h => h⟩
  case false =>
    cases ha : applyOperation hashFn s op peer_id now with
    | mk r s2 =>
    cases r with
    | error e =>
      have hf := applyOperation_error_frame hashFn s op peer_id now e s2 ha
      simp only [ha]
      refine ⟨?_, ?_, ?_, by rw [hf.2.2.2.1], by rw [hf.2.2.2.1], ⟨[], by simp [hf.2.1]⟩,
        ?_⟩
      · constructor
        · intro id
          rw [hf.2.2.1, hf.2.1]
          exact hInv.1 id
        · rw [hf.2.1]
          exact hInv.2
      · intro k
        rw [hf.2.2.2.2]
        exact hbump1 k
      · intro h
        rw [hf.2.2.2.2]
        exact hbump2 h
      · intro id h
        rw [hf.2.2.1]
        exact h
    | ok u =>
      cases u
      have hsh := applyOperation_ok_shape hashFn s op peer_id now s2 hc ha
      simp only [ha]
      refine ⟨?_, ?_, ?_, by rw [hsh.2.2.2.2], by rw [hsh.2.2.2.1],
        ⟨[op], hsh.1⟩, ?_⟩
      · constructor
        · intro id
          rw [hsh.2.1, hsh.1]
          show (id == op.operation_id || s.operation_index.contains id) = true ↔ _
          rw [Bool.or_eq_true]
          constructor
          · intro hor
            rcases hor with hor | hor
            · exact ⟨op, by simp, (beq_iff_eq.mp hor).symm⟩
            · rcases (hInv.1 id).mp hor with ⟨o, hmem, ho⟩
              exact ⟨o, by simp [hmem], ho⟩
          · intro ⟨o, hmem, ho⟩
            rw [List.mem_append] at hmem
            rcases hmem with hmem | hmem
            · exact Or.inr ((hInv.1 id).mpr ⟨o, hmem, ho⟩)
            · simp only [List.mem_singleton] at hmem
              exact Or.inl (beq_iff_eq.mpr (hmem ▸ ho).symm)
        · rw [hsh.1]
          simp only [List.map_append, List.map_cons, List.map_nil]
          rw [List.nodup_append]
          refine ⟨hInv.2, by simp, ?_⟩
          intro a ha2 hb
          simp only [List.mem_singleton] at hb
          have : s.operation_index.contains op.operation_id = true :=
            (hInv.1 op.operation_id).mpr (by
              simp only [List.mem_map] at ha2
              rcases ha2 with ⟨o, hmem, ho⟩
              exact ⟨o, hmem, by rw [ho, hb]⟩)
          rw [hc] at this
          exact Bool.noConfusion this
      · intro k
        rw [hsh.2.2.1]
        exact hbump1 k
      · intro h
        rw [hsh.2.2.1]
        exact hbump2 h
      · intro id h
        rw [hsh.2.1]
        show (id == op.operation_id || s.operation_index.contains id) = true
        rw [Bool.or_eq_true]
        exact Or.inr h

/-! ## Persistence of skip conditions across log growth -/

theorem hasOperation_mono (s s2 : CrdtMemory) (id : String) (ext : List MemoryOperation)
    (hext : s2.operations = s.operations ++ ext) (h : hasOperation s id = true) :
    hasOperation s2 id = true := by
  rw [hasOperation_iff] at h ⊢
  rcases h with ⟨op, hmem, ho⟩
  exact ⟨op, by rw [hext]; exact List.mem_append.mpr (Or.inl hmem), ho⟩

theorem conflictingOps_ext (s s2 : CrdtMemory) (op : MemoryOperation)
    (ext : List MemoryOperation) (hext : s2.operations = s.operations ++ ext) :
    conflictingOps s2 op = conflictingOps s op ++
      ext.filter (fun o => o.field_path == op.field_path && !(Json.beq o.value op.value)) := by
  unfold conflictingOps
  rw [hext, List.filter_append]

theorem lwwShouldApply_append_false (ot : Nat) : ∀ (l1 l2 : List MemoryOperation),
    lwwShouldApply ot l1 = Except.ok false →
    lwwShouldApply ot (l1 ++ l2) = Except.ok false
  | [], _, h => by
    unfold lwwShouldApply at h
    exact absurd h (by simp)
  | o :: rest, l2, h => by
    rw [List.cons_append]
    unfold lwwShouldApply at h ⊢
    cases hts : o.timestamp
    · rw [hts] at h
      exact absurd h (by simp)
    · rename_i t
      rw [hts] at h
      have h3 : (if t ≥ ot then Except.ok false else lwwShouldApply ot rest) =
          Except.ok false := h
      show (if t ≥ ot then Except.ok false else lwwShouldApply ot (rest ++ l2)) =
        Except.ok false
      by_cases hge : t ≥ ot
      · rw [if_pos hge]
      · rw [if_neg hge]
        rw [if_neg hge] at h3
        exact lwwShouldApply_append_false ot rest l2 h3

theorem isEmpty_append_false {α : Type} (l1 l2 : List α) (h : l1.isEmpty = false) :
    (l1 ++ l2).isEmpty = false := by
  cases l1 with
  | nil => simp at h
  | cons a t => rfl

theorem blockedOp_mono (s s2 : CrdtMemory) (op : MemoryOperation)
    (ext : List MemoryOperation) (hext : s2.operations = s.operations ++ ext)
    (hstrat : s2.merge_metadata.conflict_resolution_strategy =
      s.merge_metadata.conflict_resolution_strategy)
    (h : BlockedOp s op) : BlockedOp s2 op := by
  obtain ⟨hne, hcases⟩ := h
  have hconf := conflictingOps_ext s s2 op ext hext
  constructor
  · rw [hconf]
    exact isEmpty_append_false _ _ hne
  · rcases hcases with ⟨hl, ot, hts, hscan⟩ | hm
    · exact Or.inl ⟨by rw [hstrat, hl], ot, hts,
        by rw [hconf]; exact lwwShouldApply_append_false ot _ _ hscan⟩
    · exact Or.inr (by rw [hstrat, hm])

theorem transformOperation_id (op : MemoryOperation) (conflicting : List MemoryOperation) :
    (transformOperation op conflicting).operation_id = op.operation_id := by
  unfold transformOperation
  split
  · split
    · rfl
    · rfl
  · rfl

theorem contains_eq_false_of_hasOperation_false (s : CrdtMemory) (id : String)
    (hInv : IndexCoherent s) (h : hasOperation s id = false) :
    s.operation_index.contains id = false := by
  cases hx : s.operation_index.contains id
  · rfl
  · rcases (hInv.1 id).mp hx with ⟨o, hmem, ho⟩
    have := (hasOperation_iff s id).mpr ⟨o, hmem, ho⟩
    rw [h] at this
    exact Bool.noConfusion this

/-! ## One step of the concurrent-resolution loop -/

theorem resolveStep_ok (hashFn : JsonText → String) (s : CrdtMemory)
    (op : MemoryOperation) (p : String) (n : Nat) (hInv : IndexCoherent s)
    (cs : List ConflictInfo) (s3 : CrdtMemory)
    (h : resolveStep hashFn s op p n = (Except.ok cs, s3)) :
    IndexCoherent s3 ∧
    (∀ k, vcGet s.vector_clock.clock k ≤ vcGet s3.vector_clock.clock k) ∧
    (vcSorted s.vector_clock.clock = true → vcSorted s3.vector_clock.clock = true) ∧
    s3.merge_metadata.conflict_resolution_strategy =
      s.merge_metadata.conflict_resolution_strategy ∧
    s3.merge_metadata.merged_from = s.merge_metadata.merged_from ∧
    (∃ ext, s3.operations = s.operations ++ ext) ∧
    (hasOperation s3 op.operation_id = true ∨ BlockedOp s3 op) := by
  have hrefl : ∀ (cs2 : List ConflictInfo), (Except.ok cs2, s) = ((Except.ok cs : Except CrdtError (List ConflictInfo)), s3) →
      s3 = s := by
    intro cs2 hx
    exact (((Prod.mk.injEq _ _ _ _).mp hx).2).symm
  have happlied : ∀ (top : MemoryOperation), top.operation_id = op.operation_id →
      s.operation_index.contains top.operation_id = false →
      applyOperation hashFn s top p n = (Except.ok (), s3) →
      IndexCoherent s3 ∧
      (∀ k, vcGet s.vector_clock.clock k ≤ vcGet s3.vector_clock.clock k) ∧
      (vcSorted s.vector_clock.clock = true → vcSorted s3.vector_clock.clock = true) ∧
      s3.merge_metadata.conflict_resolution_strategy =
        s.merge_metadata.conflict_resolution_strategy ∧
      s3.merge_metadata.merged_from = s.merge_metadata.merged_from ∧
      (∃ ext, s3.operations = s.operations ++ ext) ∧
      (hasOperation s3 op.operation_id = true ∨ BlockedOp s3 op) := by
    intro top hid hct hap
    have hprops := applyOperation_props hashFn s top p n hInv
    rw [hap] at hprops
    have hsh := applyOperation_ok_shape hashFn s top p n s3 hct hap
    refine ⟨hprops.1, hprops.2.1, hprops.2.2.1, hprops.2.2.2.1, hprops.2.2.2.2.1,
      hprops.2.2.2.2.2.1, Or.inl ?_⟩
    exact (hasOperation_iff s3 op.operation_id).mpr
      ⟨top, by rw [hsh.1]; simp, hid⟩
  unfold resolveStep at h
  by_cases hho : hasOperation s op.operation_id = true
  · rw [if_pos hho] at h
    have hs3 := hrefl [] h
    subst hs3
    exact ⟨hInv, fun k => le_refl _, fun hx => hx, rfl, rfl, ⟨[], by simp⟩, Or.inl hho⟩
  · have hho2 : hasOperation s op.operation_id = false := by
      cases hx : hasOperation s op.operation_id
      · rfl
      · exact absurd hx hho
    have hct : s.operation_index.contains op.operation_id = false :=
      contains_eq_false_of_hasOperation_false s op.operation_id hInv hho2
    rw [if_neg hho] at h
    by_cases hce : (conflictingOps s op).isEmpty = true
    · rw [if_pos hce] at h
      cases hap : applyOperation hashFn s op p n with
      | mk r s4 =>
        rw [hap] at h
        cases r with
        | error e => exact absurd ((Prod.mk.injEq _ _ _ _).mp h).1 (by simp)
        | ok u =>
          cases u
          have hs3 : s4 = s3 := ((Prod.mk.injEq _ _ _ _).mp h).2
          rw [hs3] at hap
          exact happlied op rfl hct hap
    · have hce2 : (conflictingOps s op).isEmpty = false := by
        cases hx : (conflictingOps s op).isEmpty
        · rfl
        · exact absurd hx hce
      rw [if_neg hce] at h
      split at h
      · rename_i xv hst
        split at h
        · exact absurd ((Prod.mk.injEq _ _ _ _).mp h).1 (by simp)
        · rename_i xts ot hts
          split at h
          · exact absurd ((Prod.mk.injEq _ _ _ _).mp h).1 (by simp)
          · rename_i xsc hscan
            split at h
            · rename_i u s4 hap
              have hs3 : s4 = s3 := ((Prod.mk.injEq _ _ _ _).mp h).2
              rw [hs3] at hap
              exact happlied op rfl hct hap
            · exact absurd ((Prod.mk.injEq _ _ _ _).mp h).1 (by simp)
          · rename_i xsc hscan
            have hs3 := hrefl [] h
            subst hs3
            exact ⟨hInv, fun k => le_refl _, fun hx => hx, rfl, rfl, ⟨[], by simp⟩,
              Or.inr ⟨hce2, Or.inl ⟨hst, ot, hts, hscan⟩⟩⟩
      · rename_i xv hst
        split at h
        · rename_i u s4 hap
          have hs3 : s4 = s3 := ((Prod.mk.injEq _ _ _ _).mp h).2
          rw [hs3] at hap
          have hid := transformOperation_id op (conflictingOps s op)
          exact happlied _ hid (by rw [hid]; exact hct) hap
        · exact absurd ((Prod.mk.injEq _ _ _ _).mp h).1 (by simp)
      · rename_i xv hst
        have hs3 := hrefl _ h
        subst hs3
        exact ⟨hInv, fun k => le_refl _, fun hx => hx, rfl, rfl, ⟨[], by simp⟩,
          Or.inr ⟨hce2, Or.inr hst⟩⟩

/-! ## The concurrent-resolution loop -/

theorem resolveLoop_ok (hashFn : JsonText → String) (p : String) (n : Nat) :
    ∀ (l : List MemoryOperation) (s : CrdtMemory) (cs : List ConflictInfo) (s2 : CrdtMemory),
    IndexCoherent s → resolveLoop hashFn s l p n = (Except.ok cs, s2) →
    IndexCoherent s2 ∧
    (∀ k, vcGet s.vector_clock.clock k ≤ vcGet s2.vector_clock.clock k) ∧
    (vcSorted s.vector_clock.clock = true → vcSorted s2.vector_clock.clock = true) ∧
    s2.merge_metadata.conflict_resolution_strategy =
      s.merge_metadata.conflict_resolution_strategy ∧
    s2.merge_metadata.merged_from = s.merge_metadata.merged_from ∧
    (∃ ext, s2.operations = s.operations ++ ext) ∧
    (∀ op ∈ l, hasOperation s2 op.operation_id = true ∨ BlockedOp s2 op)
  | [], s, cs, s2, hInv, h => by
    unfold resolveLoop at h
    have hs2 : s = s2 := ((Prod.mk.injEq _ _ _ _).mp h).2
    subst hs2
    exact ⟨hInv, fun k => le_refl _, fun hx => hx, rfl, rfl, ⟨[], by simp⟩,
      by intro op hop; simp at hop⟩
  | op :: rest, s, cs, s2, hInv, h => by
    unfold resolveLoop at h
    cases hstep : resolveStep hashFn s op p n with
    | mk r1 s3 =>
      rw [hstep] at h
      cases r1 with
      | error e => exact absurd ((Prod.mk.injEq _ _ _ _).mp h).1 (by simp)
      | ok cs1 =>
        have h2 : (match resolveLoop hashFn s3 rest p n with
            | (Except.error e, s4) => (Except.error e, s4)
            | (Except.ok cs3, s4) => (Except.ok (cs1 ++ cs3), s4)) =
            (Except.ok cs, s2) := h
        cases hrest : resolveLoop hashFn s3 rest p n with
        | mk r2 s4 =>
          rw [hrest] at h2
          cases r2 with
          | error e => exact absurd ((Prod.mk.injEq _ _ _ _).mp h2).1 (by simp)
          | ok cs2 =>
            have hs2 : s4 = s2 := ((Prod.mk.injEq _ _ _ _).mp h2).2
            subst hs2
            have hs := resolveStep_ok hashFn s op p n hInv cs1 s3 hstep
            have hr := resolveLoop_ok hashFn p n rest s3 cs2 s4 hs.1 hrest
            obtain ⟨hi3, hm3, hso3, hst3, hmf3, ⟨e3, he3⟩, hd3⟩ := hs
            obtain ⟨hi4, hm4, hso4, hst4, hmf4, ⟨e4, he4⟩, hd4⟩ := hr
            refine ⟨hi4, fun k => le_trans (hm3 k) (hm4 k), fun hx => hso4 (hso3 hx),
              hst4.trans hst3, hmf4.trans hmf3,
              ⟨e3 ++ e4, by rw [he4, he3, List.append_assoc]⟩, ?_⟩
            intro o ho
            rcases List.mem_cons.mp ho with rfl | ho2
            · rcases hd3 with hd | hd
              · exact Or.inl (hasOperation_mono s3 s4 o.operation_id e4 he4 hd)
              · exact Or.inr (blockedOp_mono s3 s4 o e4 he4 hst4 hd)
            · exact hd4 o ho2

theorem resolveLoop_noop (hashFn : JsonText → String) (p : String) (n : Nat) :
    ∀ (l : List MemoryOperation) (s : CrdtMemory),
    (∀ op ∈ l, hasOperation s op.operation_id = true ∨ BlockedOp s op) →
    ∃ cs, resolveLoop hashFn s l p n = (Except.ok cs, s)
  | [], s, _ => ⟨[], rfl⟩
  | op :: rest, s, hall => by
    obtain ⟨cs2, hrest⟩ := resolveLoop_noop hashFn p n rest s
      (fun o ho => hall o (List.mem_cons_of_mem op ho))
    have hstep : resolveStep hashFn s op p n = (Except.ok [], s) ∨
        ∃ ci, resolveStep hashFn s op p n = (Except.ok [ci], s) := by
      rcases hall op (List.mem_cons_self op rest) with hho | hbl
      · unfold resolveStep
        rw [if_pos hho]
        exact Or.inl rfl
      · cases hho : hasOperation s op.operation_id
        case true =>
          unfold resolveStep
          rw [if_pos hho]
          exact Or.inl rfl
        case false =>
          obtain ⟨hne, hcase⟩ := hbl
          unfold resolveStep
          rw [if_neg (by rw [hho]; exact Bool.false_ne_true),
            if_neg (by rw [hne]; exact Bool.false_ne_true)]
          rcases hcase with ⟨hlww, ot, hts, hscan⟩ | hman
          · refine Or.inl ?_
            rw [hlww, hts]
            show (match lwwShouldApply ot (conflictingOps s op) with
              | Except.error e => (Except.error e, s)
              | Except.ok true =>
                match applyOperation hashFn s op p n with
                | (Except.ok a, s4) => (Except.ok [], s4)
                | (Except.error e, s4) => (Except.error e, s4)
              | Except.ok false => (Except.ok [], s)) = (Except.ok [], s)
            rw [hscan]
          · rw [hman]
            exact Or.inr ⟨_, rfl⟩
    rcases hstep with hstep | ⟨ci, hstep⟩
    · refine ⟨[] ++ cs2, ?_⟩
      unfold resolveLoop
      rw [hstep]
      show (match resolveLoop hashFn s rest p n with
        | (Except.error e, s3) => (Except.error e, s3)
        | (Except.ok cs3, s3) => (Except.ok ([] ++ cs3), s3)) = _
      rw [hrest]
    · refine ⟨[ci] ++ cs2, ?_⟩
      unfold resolveLoop
      rw [hstep]
      show (match resolveLoop hashFn s rest p n with
        | (Except.error e, s3) => (Except.error e, s3)
        | (Except.ok cs3, s3) => (Except.ok ([ci] ++ cs3), s3)) = _
      rw [hrest]

/-! ## The Less-branch application loop -/

theorem applyMissing_ok (hashFn : JsonText → String) (p : String) (n : Nat) :
    ∀ (l : List MemoryOperation) (s : CrdtMemory) (s2 : CrdtMemory),
    IndexCoherent s → applyMissing hashFn s l p n = (Except.ok (), s2) →
    IndexCoherent s2 ∧
    (∀ k, vcGet s.vector_clock.clock k ≤ vcGet s2.vector_clock.clock k) ∧
    (vcSorted s.vector_clock.clock = true → vcSorted s2.vector_clock.clock = true) ∧
    s2.merge_metadata.conflict_resolution_strategy =
      s.merge_metadata.conflict_resolution_strategy ∧
    s2.merge_metadata.merged_from = s.merge_metadata.merged_from ∧
    (∃ ext, s2.operations = s.operations ++ ext) ∧
    (∀ id, s.operation_index.contains id = true →
      s2.operation_index.contains id = true) ∧
    (∀ op ∈ l, s2.operation_index.contains op.operation_id = true)
  | [], s, s2, hInv, h => by
    unfold applyMissing at h
    have hs2 : s = s2 := ((Prod.mk.injEq _ _ _ _).mp h).2
    subst hs2
    exact ⟨hInv, fun k => le_refl _, fun hx => hx, rfl, rfl, ⟨[], by simp⟩,
      fun id hx => hx, by intro op hop; simp at hop⟩
  | op :: rest, s, s2, hInv, h => by
    unfold applyMissing at h
    by_cases hc : s.operation_index.contains op.operation_id = true
    · rw [if_pos hc] at h
      have hr := applyMissing_ok hashFn p n rest s s2 hInv h
      refine ⟨hr.1, hr.2.1, hr.2.2.1, hr.2.2.2.1, hr.2.2.2.2.1, hr.2.2.2.2.2.1,
        hr.2.2.2.2.2.2.1, ?_⟩
      intro o ho
      rcases List.mem_cons.mp ho with rfl | ho2
      · exact hr.2.2.2.2.2.2.1 o.operation_id hc
      · exact hr.2.2.2.2.2.2.2 o ho2
    · rw [if_neg hc] at h
      have hc2 : s.operation_index.contains op.operation_id = false := by
        cases hx : s.operation_index.contains op.operation_id
        · rfl
        · exact absurd hx hc
      cases hap : applyOperation hashFn s op p n with
      | mk r s3 =>
        rw [hap] at h
        cases r with
        | error e => exact absurd ((Prod.mk.injEq _ _ _ _).mp h).1 (by simp)
        | ok u =>
          cases u
          have hprops := applyOperation_props hashFn s op p n hInv
          rw [hap] at hprops
          have hsh := applyOperation_ok_shape hashFn s op p n s3 hc2 hap
          have hr := applyMissing_ok hashFn p n rest s3 s2 hprops.1 h
          obtain ⟨hi4, hm4, hso4, hst4, hmf4, ⟨e4, he4⟩, hmono4, hall4⟩ := hr
          obtain ⟨e3, he3⟩ := hprops.2.2.2.2.2.1
          refine ⟨hi4, fun k => le_trans (hprops.2.1 k) (hm4 k),
            fun hx => hso4 (hprops.2.2.1 hx), hst4.trans hprops.2.2.2.1,
            hmf4.trans hprops.2.2.2.2.1,
            ⟨e3 ++ e4, by rw [he4, he3, List.append_assoc]⟩,
            fun id hx => hmono4 id (hprops.2.2.2.2.2.2 id hx), ?_⟩
          intro o ho
          rcases List.mem_cons.mp ho with rfl | ho2
          · refine hmono4 o.operation_id ?_
            rw [hsh.2.1]
            show (o.operation_id == o.operation_id || _) = true
            simp
          · exact hall4 o ho2

theorem applyMissing_noop (hashFn : JsonText → String) (p : String) (n : Nat) :
    ∀ (l : List MemoryOperation) (s : CrdtMemory),
    (∀ op ∈ l, s.operation_index.contains op.operation_id = true) →
    applyMissing hashFn s l p n = (Except.ok (), s)
  | [], _, _ => rfl
  | op :: rest, s, hall => by
    unfold applyMissing
    rw [if_pos (hall op (List.mem_cons_self op rest))]
    exact applyMissing_noop hashFn p n rest s
      (fun o ho => hall o (List.mem_cons_of_mem op ho))

theorem mergeMergedFrom_fields (s x : CrdtMemory) :
    (mergeMergedFrom s x).base_memory = s.base_memory ∧
    (mergeMergedFrom s x).operations = s.operations ∧
    (mergeMergedFrom s x).operation_index = s.operation_index ∧
    (mergeMergedFrom s x).vector_clock = s.vector_clock ∧
    (mergeMergedFrom s x).merge_metadata.conflict_resolution_strategy =
      s.merge_metadata.conflict_resolution_strategy ∧
    (mergeMergedFrom s x).merge_metadata.merged_from =
      dedupAdj (sortStrings (s.merge_metadata.merged_from ++
        x.merge_metadata.merged_from)) :=
  ⟨rfl, rfl, rfl, rfl, rfl, rfl⟩

/-! ## Frame of merged_from through the application loops -/

theorem applyOperation_merged_from (hashFn : JsonText → String) (s : CrdtMemory)
    (op : MemoryOperation) (p : String) (n : Nat) :
    (applyOperation hashFn s op p n).2.merge_metadata.merged_from =
      s.merge_metadata.merged_from := by
  unfold applyOperation
  split
  · rfl
  · show (match dispatchOp hashFn
        { s with vector_clock := (s.vector_clock.update op.vector_clock).increment p }
        op n with
      | Except.error e => (Except.error e,
          { s with vector_clock := (s.vector_clock.update op.vector_clock).increment p })
      | Except.ok s2 =>
        (Except.ok (),
          { s2 with
              operation_index := op.operation_id :: s2.operation_index
              operations := s2.operations ++ [op]
              merge_metadata :=
                { s2.merge_metadata with last_merge_timestamp := n } })
      ).2.merge_metadata.merged_from = s.merge_metadata.merged_from
    cases hd : dispatchOp hashFn
        { s with vector_clock := (s.vector_clock.update op.vector_clock).increment p }
        op n with
    | error e => rfl
    | ok s2 =>
      have hf := dispatchOp_ok_frame hashFn
        { s with vector_clock := (s.vector_clock.update op.vector_clock).increment p }
        op n s2 hd
      show s2.merge_metadata.merged_from = s.merge_metadata.merged_from
      rw [hf.2.2.2]

theorem applyMissing_merged_from (hashFn : JsonText → String) (p : String) (n : Nat) :
    ∀ (l : List MemoryOperation) (s : CrdtMemory),
    (applyMissing hashFn s l p n).2.merge_metadata.merged_from =
      s.merge_metadata.merged_from
  | [], _ => rfl
  | op :: rest, s => by
    unfold applyMissing
    split
    · exact applyMissing_merged_from hashFn p n rest s
    · cases happ : applyOperation hashFn s op p n with
      | mk r s2 =>
        have h1 := applyOperation_merged_from hashFn s op p n
        rw [happ] at h1
        cases r with
        | error e => exact h1
        | ok u =>
          rw [applyMissing_merged_from hashFn p n rest s2]
          exact h1

theorem resolveStep_merged_from (hashFn : JsonText → String) (s : CrdtMemory)
    (op : MemoryOperation) (p : String) (n : Nat) :
    (resolveStep hashFn s op p n).2.merge_metadata.merged_from =
      s.merge_metadata.merged_from := by
  unfold resolveStep
  split
  · rfl
  · split
    · cases happ : applyOperation hashFn s op p n with
      | mk r s2 =>
        have h1 := applyOperation_merged_from hashFn s op p n
        rw [happ] at h1
        cases r with
        | error e => exact h1
        | ok u => exact h1
    · split
      · split
        · rfl
        · split
          · rfl
          · cases happ : applyOperation hashFn s op p n with
            | mk r s2 =>
              have h1 := applyOperation_merged_from hashFn s op p n
              rw [happ] at h1
              cases r with
              | error e => exact h1
              | ok u => exact h1
          · rfl
      · cases happ : applyOperation hashFn s
            (transformOperation op (conflictingOps s op)) p n with
        | mk r s2 =>
          have h1 := applyOperation_merged_from hashFn s
            (transformOperation op (conflictingOps s op)) p n
          rw [happ] at h1
          cases r with
          | error e => exact h1
          | ok u => exact h1
      · rfl

theorem resolveLoop_merged_from (hashFn : JsonText → String) (p : String) (n : Nat) :
    ∀ (l : List MemoryOperation) (s : CrdtMemory),
    (resolveLoop hashFn s l p n).2.merge_metadata.merged_from =
      s.merge_metadata.merged_from
  | [], _ => rfl
  | op :: rest, s => by
    unfold resolveLoop
    cases hstep : resolveStep hashFn s op p n with
    | mk r s2 =>
      have h1 := resolveStep_merged_from hashFn s op p n
      rw [hstep] at h1
      cases r with
      | error e => exact h1
      | ok cs =>
        show (match resolveLoop hashFn s2 rest p n with
          | (Except.error e, s3) => (Except.error e, s3)
          | (Except.ok cs2, s3) => (Except.ok (cs ++ cs2), s3)
          ).2.merge_metadata.merged_from = s.merge_metadata.merged_from
        cases hrest : resolveLoop hashFn s2 rest p n with
        | mk r2 s3 =>
          have h2 := resolveLoop_merged_from hashFn p n rest s2
          rw [hrest] at h2
          cases r2 with
          | error e => exact h2.trans h1
          | ok cs2 => exact h2.trans h1

/-! ## C6: the merged_from bookkeeping of merge_with -/

/-- Counterexample to C6 as stated: when the clock comparison returns
`Greater`, `merge_with` returns before the `merged_from` bookkeeping, so the
local `merged_from` is not extended with the remote contributors and
`last_merge_timestamp` is not bumped; and even on the `Less` path, when every
remote operation is already indexed locally, `merged_from` is merged but
`last_merge_timestamp` stays untouched (it is only ever set inside a
successful `apply_operation`). -/
theorem claim_C6_counterexample :
    (mergeWith (fun _ => "") (CrdtMemory.mk
        (SignedMemory.mk "i" "d" "t" JsonText.invalid "h" "sg" 0 0)
        ⟨[("a", 1)]⟩ [] [] (MergeMetadata.mk ["b"] ConflictStrategy.LastWriterWins 0))
      (CrdtMemory.mk
        (SignedMemory.mk "j" "e" "u" JsonText.invalid "h2" "sg2" 0 0)
        ⟨[]⟩ [] [] (MergeMetadata.mk ["c"] ConflictStrategy.LastWriterWins 0))
      "p" 9 = (Except.ok [], CrdtMemory.mk
        (SignedMemory.mk "i" "d" "t" JsonText.invalid "h" "sg" 0 0)
        ⟨[("a", 1)]⟩ [] [] (MergeMetadata.mk ["b"] ConflictStrategy.LastWriterWins 0))) ∧
    dedupAdj (sortStrings (["b"] ++ ["c"])) = ["b", "c"] ∧
    (["b"] : List String) ≠ ["b", "c"] ∧
    (mergeWith (fun _ => "") (CrdtMemory.mk
        (SignedMemory.mk "i" "d" "t" JsonText.invalid "h" "sg" 0 0)
        ⟨[]⟩ [] ["op1"] (MergeMetadata.mk ["b"] ConflictStrategy.LastWriterWins 0))
      (CrdtMemory.mk
        (SignedMemory.mk "j" "e" "u" JsonText.invalid "h2" "sg2" 0 0)
        ⟨[("a", 1)]⟩
        [MemoryOperation.mk "op1" OperationType.Set "f" (Json.str "v") ⟨[]⟩ (some 1)]
        ["op1"] (MergeMetadata.mk ["c"] ConflictStrategy.LastWriterWins 0))
      "p" 9).2.merge_metadata.last_merge_timestamp = 0 ∧
    (mergeWith (fun _ => "") (CrdtMemory.mk
        (SignedMemory.mk "i" "d" "t" JsonText.invalid "h" "sg" 0 0)
        ⟨[]⟩ [] ["op1"] (MergeMetadata.mk ["b"] ConflictStrategy.LastWriterWins 0))
      (CrdtMemory.mk
        (SignedMemory.mk "j" "e" "u" JsonText.invalid "h2" "sg2" 0 0)
        ⟨[("a", 1)]⟩
        [MemoryOperation.mk "op1" OperationType.Set "f" (Json.str "v") ⟨[]⟩ (some 1)]
        ["op1"] (MergeMetadata.mk ["c"] ConflictStrategy.LastWriterWins 0))
      "p" 9).2.merge_metadata.merged_from = ["b", "c"] :=
  ⟨rfl, rfl, by decide, rfl, rfl⟩

/-- C6 (amended): `merge_with` merges, sorts and deduplicates `merged_from`
only when the comparison verdict is `Less` or `Concurrent` and the
application loop succeeds; on `Greater` or `Equal` it returns `Ok(vec![])`
early with the state fully unchanged, and `last_merge_timestamp` is never
written by `merge_with` itself (only successful `apply_operation` calls bump
it). -/
theorem claim_C6_merged_from_union_on_progress_only (hashFn : JsonText → String)
    (s x : CrdtMemory) (p : String) (n : Nat) :
    ((s.vector_clock.compare x.vector_clock = ClockOrdering.Greater ∨
      s.vector_clock.compare x.vector_clock = ClockOrdering.Equal) →
      mergeWith hashFn s x p n = (Except.ok [], s)) ∧
    (∀ cs s2, mergeWith hashFn s x p n = (Except.ok cs, s2) →
      (s.vector_clock.compare x.vector_clock = ClockOrdering.Less ∨
       s.vector_clock.compare x.vector_clock = ClockOrdering.Concurrent) →
      s2.merge_metadata.merged_from =
        dedupAdj (sortStrings (s.merge_metadata.merged_from ++
          x.merge_metadata.merged_from))) := by
  constructor
  · intro hv
    unfold mergeWith
    rcases hv with hv | hv <;> rw [hv]
  · intro cs s2 hm hv
    unfold mergeWith at hm
    rcases hv with hv | hv <;> rw [hv] at hm
    · cases ha : applyMissing hashFn s x.operations p n with
      | mk r s3 =>
        rw [ha] at hm
        cases r with
        | error e => exact absurd ((Prod.mk.injEq _ _ _ _).mp hm).1 (by simp)
        | ok u =>
          have hs2 : mergeMergedFrom s3 x = s2 := ((Prod.mk.injEq _ _ _ _).mp hm).2
          have hfr := applyMissing_merged_from hashFn p n x.operations s
          rw [ha] at hfr
          rw [← hs2]
          show dedupAdj (sortStrings (s3.merge_metadata.merged_from ++
            x.merge_metadata.merged_from)) = _
          rw [hfr]
    · cases ha : resolveConcurrentOperations hashFn s x p n with
      | mk r s3 =>
        rw [ha] at hm
        cases r with
        | error e => exact absurd ((Prod.mk.injEq _ _ _ _).mp hm).1 (by simp)
        | ok cs1 =>
          have hs2 : mergeMergedFrom s3 x = s2 := ((Prod.mk.injEq _ _ _ _).mp hm).2
          have hfr := resolveLoop_merged_from hashFn p n x.operations s
          have ha2 : resolveLoop hashFn s x.operations p n = (Except.ok cs1, s3) := ha
          rw [ha2] at hfr
          rw [← hs2]
          show dedupAdj (sortStrings (s3.merge_metadata.merged_from ++
            x.merge_metadata.merged_from)) = _
          rw [hfr]

/-- Witness for C6 (amended): on a `Greater` pair the merge returns the state
unchanged; on a `Less` pair with no remote operations the result state has
the merged, sorted, deduplicated `merged_from`. -/
theorem claim_C6_witness :
    (mergeWith (fun _ => "") (CrdtMemory.mk
        (SignedMemory.mk "i" "d" "t" JsonText.invalid "h" "sg" 0 0)
        ⟨[("a", 1)]⟩ [] [] (MergeMetadata.mk ["b"] ConflictStrategy.LastWriterWins 0))
      (CrdtMemory.mk
        (SignedMemory.mk "j" "e" "u" JsonText.invalid "h2" "sg2" 0 0)
        ⟨[]⟩ [] [] (MergeMetadata.mk ["c"] ConflictStrategy.LastWriterWins 0))
      "p" 3 = (Except.ok [], CrdtMemory.mk
        (SignedMemory.mk "i" "d" "t" JsonText.invalid "h" "sg" 0 0)
        ⟨[("a", 1)]⟩ [] [] (MergeMetadata.mk ["b"] ConflictStrategy.LastWriterWins 0))) ∧
    ((mergeWith (fun _ => "") (CrdtMemory.mk
        (SignedMemory.mk "i" "d" "t" JsonText.invalid "h" "sg" 0 0)
        ⟨[]⟩ [] [] (MergeMetadata.mk ["b"] ConflictStrategy.LastWriterWins 0))
      (CrdtMemory.mk
        (SignedMemory.mk "j" "e" "u" JsonText.invalid "h2" "sg2" 0 0)
        ⟨[("a", 1)]⟩ [] [] (MergeMetadata.mk ["c"] ConflictStrategy.LastWriterWins 0))
      "p" 3).2.merge_metadata.merged_from = dedupAdj (sortStrings (["b"] ++ ["c"]))) := by
  constructor
  · exact (claim_C6_merged_from_union_on_progress_only (fun _ => "")
      (CrdtMemory.mk (SignedMemory.mk "i" "d" "t" JsonText.invalid "h" "sg" 0 0)
        ⟨[("a", 1)]⟩ [] [] (MergeMetadata.mk ["b"] ConflictStrategy.LastWriterWins 0))
      (CrdtMemory.mk (SignedMemory.mk "j" "e" "u" JsonText.invalid "h2" "sg2" 0 0)
        ⟨[]⟩ [] [] (MergeMetadata.mk ["c"] ConflictStrategy.LastWriterWins 0))
      "p" 3).1 (Or.inl rfl)
  · exact (claim_C6_merged_from_union_on_progress_only (fun _ => "")
      (CrdtMemory.mk (SignedMemory.mk "i" "d" "t" JsonText.invalid "h" "sg" 0 0)
        ⟨[]⟩ [] [] (MergeMetadata.mk ["b"] ConflictStrategy.LastWriterWins 0))
      (CrdtMemory.mk (SignedMemory.mk "j" "e" "u" JsonText.invalid "h2" "sg2" 0 0)
        ⟨[("a", 1)]⟩ [] [] (MergeMetadata.mk ["c"] ConflictStrategy.LastWriterWins 0))
      "p" 3).2 [] _ rfl (Or.inl rfl)

/-! ## C3: the LastWriterWins decision -/

theorem indexCoherent_mk (s : CrdtMemory)
    (hidx : s.operation_index = s.operations.map (fun o => o.operation_id))
    (hnd : (s.operations.map (fun o => o.operation_id)).Nodup) :
    IndexCoherent s := by
  refine ⟨?_, hnd⟩
  intro id
  rw [hidx]
  constructor
  · intro hx
    have hmem : id ∈ s.operations.map (fun o => o.operation_id) := by
      simpa [List.contains] using hx
    rcases List.mem_map.mp hmem with ⟨o, ho, he⟩
    exact ⟨o, ho, he⟩
  · intro ⟨o, ho, he⟩
    have hmem : id ∈ s.operations.map (fun o => o.operation_id) :=
      List.mem_map.mpr ⟨o, ho, he⟩
    simpa [List.contains] using hmem

theorem lwwShouldApply_true_iff (ot : Nat) :
    ∀ l : List MemoryOperation, (∀ o ∈ l, (o.timestamp).isSome = true) →
    (lwwShouldApply ot l = Except.ok true ↔
      ∀ o ∈ l, ∀ t, o.timestamp = some t → t < ot)
  | [], _ => by
    constructor
    · intro _ o ho
      simp at ho
    · intro _
      rfl
  | op :: rest, h => by
    have hop := h op (List.mem_cons_self op rest)
    obtain ⟨t, ht⟩ := Option.isSome_iff_exists.mp hop
    have ih := lwwShouldApply_true_iff ot rest
      (fun o ho => h o (List.mem_cons_of_mem op ho))
    unfold lwwShouldApply
    rw [ht]
    show ((if t ≥ ot then Except.ok false else lwwShouldApply ot rest) =
      Except.ok true ↔ ∀ o ∈ op :: rest, ∀ tt, o.timestamp = some tt → tt < ot)
    by_cases hge : t ≥ ot
    · rw [if_pos hge]
      constructor
      · intro hx
        exact absurd (Except.ok.inj hx) (by simp)
      · intro hall
        exact absurd (hall op (List.mem_cons_self op rest) t ht) (by omega)
    · rw [if_neg hge, ih]
      constructor
      · intro hall o ho tt htt
        rcases List.mem_cons.mp ho with rfl | ho2
        · rw [ht] at htt
          have := Option.some.inj htt
          omega
        · exact hall o ho2 tt htt
      · intro hall o ho tt htt
        exact hall o (List.mem_cons_of_mem op ho) tt htt

/-- C3: under LastWriterWins, a remote operation unknown locally whose
conflicting set (same field_path, different value) is nonempty and whose
timestamps all parse is applied by the resolution step if and only if its
timestamp is strictly greater than every conflicting local timestamp. -/
theorem claim_C3_lww_applies_iff_strictly_newer (hashFn : JsonText → String)
    (s : CrdtMemory) (op : MemoryOperation) (p : String) (n : Nat)
    (cs : List ConflictInfo) (s2 : CrdtMemory) (ot : Nat)
    (hInv : IndexCoherent s)
    (hnew : hasOperation s op.operation_id = false)
    (hlww : s.merge_metadata.conflict_resolution_strategy =
      ConflictStrategy.LastWriterWins)
    (hconf : (conflictingOps s op).isEmpty = false)
    (hts : op.timestamp = some ot)
    (hparsed : ∀ o ∈ conflictingOps s op, (o.timestamp).isSome = true)
    (h : resolveStep hashFn s op p n = (Except.ok cs, s2)) :
    hasOperation s2 op.operation_id = true ↔
      ∀ o ∈ conflictingOps s op, ∀ t, o.timestamp = some t → t < ot := by
  unfold resolveStep at h
  rw [if_neg (by rw [hnew]; exact Bool.false_ne_true),
    if_neg (by rw [hconf]; exact Bool.false_ne_true), hlww, hts] at h
  have h2 : (match lwwShouldApply ot (conflictingOps s op) with
      | Except.error e => (Except.error e, s)
      | Except.ok true =>
        match applyOperation hashFn s op p n with
        | (Except.ok _, s3) => (Except.ok ([] : List ConflictInfo), s3)
        | (Except.error e, s3) => (Except.error e, s3)
      | Except.ok false => (Except.ok ([] : List ConflictInfo), s)) =
      (Except.ok cs, s2) := h
  cases hscan : lwwShouldApply ot (conflictingOps s op) with
  | error e =>
    rw [hscan] at h2
    exact absurd ((Prod.mk.injEq _ _ _ _).mp h2).1 (by simp)
  | ok b =>
    rw [hscan] at h2
    cases b with
    | false =>
      have hs2 : s = s2 := ((Prod.mk.injEq _ _ _ _).mp h2).2
      subst hs2
      rw [hnew]
      constructor
      · intro hx
        exact absurd hx (by simp)
      · intro hall
        have hok := (lwwShouldApply_true_iff ot (conflictingOps s op) hparsed).mpr hall
        rw [hscan] at hok
        exact absurd (Except.ok.inj hok) (by simp)
    | true =>
      cases hap : applyOperation hashFn s op p n with
      | mk r s3 =>
        rw [hap] at h2
        cases r with
        | error e => exact absurd ((Prod.mk.injEq _ _ _ _).mp h2).1 (by simp)
        | ok u =>
          cases u
          have hs2 : s3 = s2 := ((Prod.mk.injEq _ _ _ _).mp h2).2
          subst hs2
          have hcF := contains_eq_false_of_hasOperation_false s op.operation_id hInv hnew
          have hsh := applyOperation_ok_shape hashFn s op p n s3 hcF hap
          refine ⟨fun _ => (lwwShouldApply_true_iff ot (conflictingOps s op) hparsed).mp hscan,
            fun _ => (hasOperation_iff s3 op.operation_id).mpr ⟨op, ?_, rfl⟩⟩
          rw [hsh.1]
          exact List.mem_append.mpr (Or.inr (by simp))

/-- Witness for C3: a remote Set with timestamp 9 against a single
conflicting local Set with timestamp 5; the step applies it, and the
equivalence instantiates to true on both sides. -/
theorem claim_C3_witness :
    hasOperation (resolveStep (fun _ => "H")
        (CrdtMemory.mk (SignedMemory.mk "i" "d" "t"
            (JsonText.valid (Json.obj [("f", Json.str "a")])) "h" "sg" 0 0)
          ⟨[]⟩
          [MemoryOperation.mk "l1" OperationType.Set "f" (Json.str "a") ⟨[]⟩ (some 5)]
          ["l1"] (MergeMetadata.mk [] ConflictStrategy.LastWriterWins 0))
        (MemoryOperation.mk "r1" OperationType.Set "f" (Json.str "b") ⟨[]⟩ (some 9))
        "p" 7).2 "r1" = true ↔
      ∀ o ∈ conflictingOps
        (CrdtMemory.mk (SignedMemory.mk "i" "d" "t"
            (JsonText.valid (Json.obj [("f", Json.str "a")])) "h" "sg" 0 0)
          ⟨[]⟩
          [MemoryOperation.mk "l1" OperationType.Set "f" (Json.str "a") ⟨[]⟩ (some 5)]
          ["l1"] (MergeMetadata.mk [] ConflictStrategy.LastWriterWins 0))
        (MemoryOperation.mk "r1" OperationType.Set "f" (Json.str "b") ⟨[]⟩ (some 9)),
        ∀ t, o.timestamp = some t → t < 9 :=
  claim_C3_lww_applies_iff_strictly_newer (fun _ => "H")
    (CrdtMemory.mk (SignedMemory.mk "i" "d" "t"
        (JsonText.valid (Json.obj [("f", Json.str "a")])) "h" "sg" 0 0)
      ⟨[]⟩
      [MemoryOperation.mk "l1" OperationType.Set "f" (Json.str "a") ⟨[]⟩ (some 5)]
      ["l1"] (MergeMetadata.mk [] ConflictStrategy.LastWriterWins 0))
    (MemoryOperation.mk "r1" OperationType.Set "f" (Json.str "b") ⟨[]⟩ (some 9))
    "p" 7 [] _ 9
    (indexCoherent_mk _ rfl (by decide)) (by decide) rfl (by decide) rfl
    (by decide) rfl

/-! ## C5: idempotence of apply_operation and merge_with -/

theorem compare_concurrent_other_less (c o : VectorClock)
    (hc : vcSorted c.clock = true) (ho : vcSorted o.clock = true)
    (h : VectorClock.compare c o = ClockOrdering.Concurrent) :
    ∃ k, vcGet o.clock k < vcGet c.clock k := by
  unfold VectorClock.compare at h
  rcases hw : compareWalk (c.clock.length + o.clock.length) c.clock o.clock with ⟨b1, b2⟩
  rw [hw] at h
  have hspec := compareWalk_spec (c.clock.length + o.clock.length) c.clock o.clock
    (le_refl _) hc ho
  rw [hw] at hspec
  cases b1 <;> cases b2 <;> simp at h hspec ⊢
  exact hspec.2

theorem compare_ne_less_of_exists_lt (c o : VectorClock)
    (hc : vcSorted c.clock = true) (ho : vcSorted o.clock = true)
    (h : ∃ k, vcGet o.clock k < vcGet c.clock k) :
    VectorClock.compare c o ≠ ClockOrdering.Less := by
  intro heq
  unfold VectorClock.compare at heq
  rcases hw : compareWalk (c.clock.length + o.clock.length) c.clock o.clock with ⟨b1, b2⟩
  rw [hw] at heq
  have hspec := compareWalk_spec (c.clock.length + o.clock.length) c.clock o.clock
    (le_refl _) hc ho
  rw [hw] at hspec
  have hb2 : b2 = true := by
    have := hspec.2.mpr h
    exact this
  subst hb2
  cases b1 <;> simp at heq

/-- C5: `apply_operation` is idempotent in the operation id — an operation
whose id is already indexed returns Ok and changes nothing — and merging the
same remote memory twice leaves base_memory, the operations log and the index
exactly as after the single merge, with no duplicate ids in the log. -/
theorem claim_C5_apply_and_merge_idempotent (hashFn : JsonText → String)
    (s x : CrdtMemory) (p p2 : String) (n n2 : Nat)
    (hInv : IndexCoherent s)
    (hs : vcSorted s.vector_clock.clock = true)
    (hx : vcSorted x.vector_clock.clock = true) :
    (∀ op : MemoryOperation,
      s.operation_index.contains op.operation_id = true →
      applyOperation hashFn s op p n = (Except.ok (), s)) ∧
    (∀ cs s1, mergeWith hashFn s x p n = (Except.ok cs, s1) →
      ∃ cs2 s2, mergeWith hashFn s1 x p2 n2 = (Except.ok cs2, s2) ∧
        s2.base_memory = s1.base_memory ∧
        s2.operations = s1.operations ∧
        s2.operation_index = s1.operation_index ∧
        (s1.operations.map (fun o => o.operation_id)).Nodup) := by
  constructor
  · intro op hc
    unfold applyOperation
    rw [if_pos hc]
  · intro cs s1 hm1
    unfold mergeWith at hm1
    cases hcmp1 : s.vector_clock.compare x.vector_clock <;> rw [hcmp1] at hm1
    case Greater =>
      have hs1 : s = s1 := ((Prod.mk.injEq _ _ _ _).mp hm1).2
      subst hs1
      refine ⟨[], s, ?_, rfl, rfl, rfl, hInv.2⟩
      unfold mergeWith
      rw [hcmp1]
    case Equal =>
      have hs1 : s = s1 := ((Prod.mk.injEq _ _ _ _).mp hm1).2
      subst hs1
      refine ⟨[], s, ?_, rfl, rfl, rfl, hInv.2⟩
      unfold mergeWith
      rw [hcmp1]
    case Less =>
      have h2 : (match applyMissing hashFn s x.operations p n with
          | (Except.error e, s2) => (Except.error e, s2)
          | (Except.ok _, s2) =>
            (Except.ok ([] : List ConflictInfo), mergeMergedFrom s2 x)) =
          (Except.ok cs, s1) := hm1
      cases ham : applyMissing hashFn s x.operations p n with
      | mk r s3 =>
        rw [ham] at h2
        cases r with
        | error e => exact absurd ((Prod.mk.injEq _ _ _ _).mp h2).1 (by simp)
        | ok u =>
          cases u
          have hs1 : mergeMergedFrom s3 x = s1 := ((Prod.mk.injEq _ _ _ _).mp h2).2
          have hb := applyMissing_ok hashFn p n x.operations s s3 hInv ham
          have hInv1 : IndexCoherent s1 := by rw [← hs1]; exact hb.1
          have hcont1 : ∀ op ∈ x.operations,
              s1.operation_index.contains op.operation_id = true := by
            rw [← hs1]
            exact hb.2.2.2.2.2.2.2
          cases hcmp2 : s1.vector_clock.compare x.vector_clock
          case Greater =>
            refine ⟨[], s1, ?_, rfl, rfl, rfl, hInv1.2⟩
            unfold mergeWith
            rw [hcmp2]
          case Equal =>
            refine ⟨[], s1, ?_, rfl, rfl, rfl, hInv1.2⟩
            unfold mergeWith
            rw [hcmp2]
          case Less =>
            have hnoop := applyMissing_noop hashFn p2 n2 x.operations s1 hcont1
            refine ⟨[], mergeMergedFrom s1 x, ?_,
              (mergeMergedFrom_fields s1 x).1, (mergeMergedFrom_fields s1 x).2.1,
              (mergeMergedFrom_fields s1 x).2.2.1, hInv1.2⟩
            unfold mergeWith
            rw [hcmp2, hnoop]
          case Concurrent =>
            have hdisp : ∀ op ∈ x.operations,
                hasOperation s1 op.operation_id = true ∨ BlockedOp s1 op :=
              fun op hop => Or.inl ((hasOperation_iff s1 op.operation_id).mpr
                ((hInv1.1 op.operation_id).mp (hcont1 op hop)))
            obtain ⟨cs3, hnoop⟩ := resolveLoop_noop hashFn p2 n2 x.operations s1 hdisp
            refine ⟨cs3, mergeMergedFrom s1 x, ?_,
              (mergeMergedFrom_fields s1 x).1, (mergeMergedFrom_fields s1 x).2.1,
              (mergeMergedFrom_fields s1 x).2.2.1, hInv1.2⟩
            unfold mergeWith
            rw [hcmp2]
            show (match resolveLoop hashFn s1 x.operations p2 n2 with
              | (Except.error e, s4) => (Except.error e, s4)
              | (Except.ok cs4, s4) => (Except.ok cs4, mergeMergedFrom s4 x)) =
              (Except.ok cs3, mergeMergedFrom s1 x)
            rw [hnoop]
    case Concurrent =>
      have h2 : (match resolveLoop hashFn s x.operations p n with
          | (Except.error e, s2) => (Except.error e, s2)
          | (Except.ok cs0, s2) => (Except.ok cs0, mergeMergedFrom s2 x)) =
          (Except.ok cs, s1) := hm1
      cases ham : resolveLoop hashFn s x.operations p n with
      | mk r s3 =>
        rw [ham] at h2
        cases r with
        | error e => exact absurd ((Prod.mk.injEq _ _ _ _).mp h2).1 (by simp)
        | ok cs0 =>
          have hs1 : mergeMergedFrom s3 x = s1 := ((Prod.mk.injEq _ _ _ _).mp h2).2
          have hb := resolveLoop_ok hashFn p n x.operations s cs0 s3 hInv ham
          have hInv1 : IndexCoherent s1 := by rw [← hs1]; exact hb.1
          have hdisp : ∀ op ∈ x.operations,
              hasOperation s1 op.operation_id = true ∨ BlockedOp s1 op := by
            rw [← hs1]
            exact hb.2.2.2.2.2.2
          have hmono1 : ∀ k, vcGet s.vector_clock.clock k ≤
              vcGet s1.vector_clock.clock k := by
            rw [← hs1]
            exact hb.2.1
          have hsor1 : vcSorted s1.vector_clock.clock = true := by
            rw [← hs1]
            exact hb.2.2.1 hs
          have hlt : ∃ k, vcGet x.vector_clock.clock k <
              vcGet s1.vector_clock.clock k := by
            obtain ⟨k, hk⟩ := compare_concurrent_other_less s.vector_clock
              x.vector_clock hs hx hcmp1
            exact ⟨k, lt_of_lt_of_le hk (hmono1 k)⟩
          cases hcmp2 : s1.vector_clock.compare x.vector_clock
          case Less =>
            exact absurd hcmp2
              (compare_ne_less_of_exists_lt s1.vector_clock x.vector_clock hsor1 hx hlt)
          case Greater =>
            refine ⟨[], s1, ?_, rfl, rfl, rfl, hInv1.2⟩
            unfold mergeWith
            rw [hcmp2]
          case Equal =>
            refine ⟨[], s1, ?_, rfl, rfl, rfl, hInv1.2⟩
            unfold mergeWith
            rw [hcmp2]
          case Concurrent =>
            obtain ⟨cs3, hnoop⟩ := resolveLoop_noop hashFn p2 n2 x.operations s1 hdisp
            refine ⟨cs3, mergeMergedFrom s1 x, ?_,
              (mergeMergedFrom_fields s1 x).1, (mergeMergedFrom_fields s1 x).2.1,
              (mergeMergedFrom_fields s1 x).2.2.1, hInv1.2⟩
            unfold mergeWith
            rw [hcmp2]
            show (match resolveLoop hashFn s1 x.operations p2 n2 with
              | (Except.error e, s4) => (Except.error e, s4)
              | (Except.ok cs4, s4) => (Except.ok cs4, mergeMergedFrom s4 x)) =
              (Except.ok cs3, mergeMergedFrom s1 x)
            rw [hnoop]

/-- Witness for C5: re-applying an already-indexed operation is the identity
with Ok, and a second merge of the same remote memory after an Equal-verdict
first merge leaves base_memory, log and index unchanged with no duplicate
ids. -/
theorem claim_C5_witness :
    applyOperation (fun _ => "H") (CrdtMemory.mk
        (SignedMemory.mk "i" "d" "t" (JsonText.valid Json.null) "h" "sg" 0 0)
        ⟨[]⟩
        [MemoryOperation.mk "a" OperationType.Set "f" (Json.str "v") ⟨[]⟩ (some 1)]
        ["a"] (MergeMetadata.mk [] ConflictStrategy.LastWriterWins 0))
      (MemoryOperation.mk "a" OperationType.Set "g" (Json.str "w") ⟨[]⟩ (some 2))
      "p" 1 = (Except.ok (), CrdtMemory.mk
        (SignedMemory.mk "i" "d" "t" (JsonText.valid Json.null) "h" "sg" 0 0)
        ⟨[]⟩
        [MemoryOperation.mk "a" OperationType.Set "f" (Json.str "v") ⟨[]⟩ (some 1)]
        ["a"] (MergeMetadata.mk [] ConflictStrategy.LastWriterWins 0)) ∧
    ∃ cs2 s2, mergeWith (fun _ => "H") (CrdtMemory.mk
        (SignedMemory.mk "i" "d" "t" (JsonText.valid Json.null) "h" "sg" 0 0)
        ⟨[]⟩
        [MemoryOperation.mk "a" OperationType.Set "f" (Json.str "v") ⟨[]⟩ (some 1)]
        ["a"] (MergeMetadata.mk [] ConflictStrategy.LastWriterWins 0))
      (CrdtMemory.mk
        (SignedMemory.mk "j" "e" "u" (JsonText.valid Json.null) "h2" "sg2" 0 0)
        ⟨[]⟩ [] [] (MergeMetadata.mk ["q"] ConflictStrategy.LastWriterWins 0))
      "p2" 2 = (Except.ok cs2, s2) ∧
      s2.base_memory = (CrdtMemory.mk
        (SignedMemory.mk "i" "d" "t" (JsonText.valid Json.null) "h" "sg" 0 0)
        ⟨[]⟩
        [MemoryOperation.mk "a" OperationType.Set "f" (Json.str "v") ⟨[]⟩ (some 1)]
        ["a"] (MergeMetadata.mk [] ConflictStrategy.LastWriterWins 0)).base_memory ∧
      s2.operations = (CrdtMemory.mk
        (SignedMemory.mk "i" "d" "t" (JsonText.valid Json.null) "h" "sg" 0 0)
        ⟨[]⟩
        [MemoryOperation.mk "a" OperationType.Set "f" (Json.str "v") ⟨[]⟩ (some 1)]
        ["a"] (MergeMetadata.mk [] ConflictStrategy.LastWriterWins 0)).operations ∧
      s2.operation_index = (CrdtMemory.mk
        (SignedMemory.mk "i" "d" "t" (JsonText.valid Json.null) "h" "sg" 0 0)
        ⟨[]⟩
        [MemoryOperation.mk "a" OperationType.Set "f" (Json.str "v") ⟨[]⟩ (some 1)]
        ["a"] (MergeMetadata.mk [] ConflictStrategy.LastWriterWins 0)).operations.map
          (fun o => o.operation_id) ∧
      ((CrdtMemory.mk
        (SignedMemory.mk "i" "d" "t" (JsonText.valid Json.null) "h" "sg" 0 0)
        ⟨[]⟩
        [MemoryOperation.mk "a" OperationType.Set "f" (Json.str "v") ⟨[]⟩ (some 1)]
        ["a"] (MergeMetadata.mk [] ConflictStrategy.LastWriterWins 0)).operations.map
          (fun o => o.operation_id)).Nodup := by
  have h := claim_C5_apply_and_merge_idempotent (fun _ => "H")
    (CrdtMemory.mk
      (SignedMemory.mk "i" "d" "t" (JsonText.valid Json.null) "h" "sg" 0 0)
      ⟨[]⟩
      [MemoryOperation.mk "a" OperationType.Set "f" (Json.str "v") ⟨[]⟩ (some 1)]
      ["a"] (MergeMetadata.mk [] ConflictStrategy.LastWriterWins 0))
    (CrdtMemory.mk
      (SignedMemory.mk "j" "e" "u" (JsonText.valid Json.null) "h2" "sg2" 0 0)
      ⟨[]⟩ [] [] (MergeMetadata.mk ["q"] ConflictStrategy.LastWriterWins 0))
    "p" "p2" 1 2 (indexCoherent_mk _ rfl (by decide)) rfl rfl
  refine ⟨h.1 (MemoryOperation.mk "a" OperationType.Set "g" (Json.str "w") ⟨[]⟩ (some 2))
    (by decide), ?_⟩
  obtain ⟨cs2, s2, hm, hb, ho, hi, hn⟩ := h.2 [] _ rfl
  exact ⟨cs2, s2, hm, hb, ho, hi, hn⟩

end Ocm
